import Mathlib

/-!
A shallow embedding of the conjecture engine
(`hypothesis/internal/conjecture/engine.py`): the result data model, the
prefix-trie cache and its insertion/lookup/novel-generation operations, the
mutator bit strategies, the target selector, the driver's budget checks,
database corpus reuse, and the shrink confirmation loop, together with
theorems settling the specification's claims against the code.

Machine integers are modelled as `Nat` (Python ints are unbounded); byte
strings are `List Nat`; dictionaries are association lists; Python's
`random` calls take their values from explicit oracle arguments; functions
whose Python counterpart can raise (assertion failures, type errors on
malformed trees) return `Option`.
-/

namespace Conjecture

/-- Test-case status, totally ordered `OVERRUN < INVALID < VALID < INTERESTING`. -/
inductive Status where
  | OVERRUN
  | INVALID
  | VALID
  | INTERESTING
deriving DecidableEq

/-- Numeric rank of a status, used for the order comparisons in the source. -/
def Status.toNat : Status → Nat
  | .OVERRUN => 0
  | .INVALID => 1
  | .VALID => 2
  | .INTERESTING => 3

/-- Strict order on statuses (`data.status < self.best_status` etc.). -/
def statusLt (a b : Status) : Bool := a.toNat < b.toNat

/-- Reasons the driver can exit with (`ExitReason` enum in the source). -/
inductive ExitReason where
  | max_examples
  | max_iterations
  | timeout
  | max_shrinks
  | finished
  | flaky
deriving DecidableEq

/-- The parts of a frozen `ConjectureData` that the engine reads: the consumed
buffer, the final status, the forced positions, the per-position masks, the
block bounds (`all_block_bounds()`), the block-start table (`block_starts`,
mapping a block length to the list of start offsets of blocks of that length)
and the interesting-origin key (opaque; here a `Nat`). -/
structure TestData where
  buffer : List Nat
  status : Status
  forcedIndices : List Nat
  maskedIndices : List (Nat × Nat)
  blockBounds : List (Nat × Nat)
  blockStarts : List (Nat × List Nat)
  interestingOrigin : Nat
deriving DecidableEq

/-- Dictionary lookup on an association list (Python `d[k]` / `d.get(k)`). -/
def alookup {α : Type} : List (Nat × α) → Nat → Option α
  | [], _ => none
  | p :: rest, k => if p.1 = k then some p.2 else alookup rest k

/-- Dictionary update on an association list (Python `d[k] = v`): replaces the
binding of `k` if present, otherwise appends it. -/
def aset {α : Type} : List (Nat × α) → Nat → α → List (Nat × α)
  | [], k, v => [(k, v)]
  | p :: rest, k, v => if p.1 = k then (k, v) :: rest else p :: aset rest k v

theorem alookup_aset_self {α : Type} (l : List (Nat × α)) (k : Nat) (v : α) :
    alookup (aset l k v) k = some v := by
  induction l with
  | nil => simp [aset, alookup]
  | cons p rest ih =>
    by_cases h : p.1 = k
    · simp [aset, h, alookup]
    · simp [aset, h, alookup, ih]

theorem alookup_aset_ne {α : Type} (l : List (Nat × α)) (k k' : Nat) (v : α)
    (h : k' ≠ k) : alookup (aset l k v) k' = alookup l k' := by
  have hk : ¬ (k = k') := fun hh => h hh.symm
  induction l with
  | nil => simp [aset, alookup, hk]
  | cons p rest ih =>
    by_cases hp : p.1 = k
    · subst hp
      have hp' : ¬ (p.1 = k') := fun hh => h hh.symm
      simp [aset, alookup, hp']
    · by_cases hq : p.1 = k'
      · simp [aset, hp, alookup, hq, h]
      · simp [aset, hp, alookup, hq, ih]

theorem alookup_aset_cases {α : Type} (l : List (Nat × α)) (k k' : Nat) (v w : α)
    (h : alookup (aset l k v) k' = some w) :
    (k' = k ∧ w = v) ∨ alookup l k' = some w := by
  by_cases hk : k' = k
  · subst hk
    rw [alookup_aset_self] at h
    exact Or.inl ⟨rfl, (Option.some_inj.mp h).symm⟩
  · rw [alookup_aset_ne l k k' v hk] at h
    exact Or.inr h

theorem aset_length_lookup_none {α : Type} (l : List (Nat × α)) (k : Nat) (v : α)
    (h : alookup l k = none) : (aset l k v).length = l.length + 1 := by
  induction l with
  | nil => simp [aset]
  | cons p rest ih =>
    by_cases hp : p.1 = k
    · simp [alookup, hp] at h
    · simp [alookup, hp] at h
      simp [aset, hp, ih h]

/-- Lexicographic `≤` on byte sequences (Python `bytes` comparison restricted
to the way the engine uses it). -/
def lexLe : List Nat → List Nat → Bool
  | [], _ => true
  | _ :: _, [] => false
  | a :: as, b :: bs => if a < b then true else if a = b then lexLe as bs else false

theorem lexLe_refl (l : List Nat) : lexLe l l = true := by
  induction l with
  | nil => rfl
  | cons a as ih => simp [lexLe, ih]

theorem lexLe_total (a b : List Nat) : lexLe a b = true ∨ lexLe b a = true := by
  induction a generalizing b with
  | nil => exact Or.inl rfl
  | cons x xs ih =>
    match b with
    | [] => exact Or.inr rfl
    | y :: ys =>
      by_cases hxy : x < y
      · left; simp [lexLe, hxy]
      · by_cases hyx : y < x
        · right; simp [lexLe, hyx]
        · have hxe : x = y := Nat.le_antisymm (Nat.le_of_not_lt hyx) (Nat.le_of_not_lt hxy)
          subst hxe
          rcases ih ys with h | h
          · left; simp [lexLe, h]
          · right; simp [lexLe, h]

/-- The driver's `sort_key(buffer)`: compare `(length, buffer)`
lexicographically — shorter is smaller, ties broken bytewise. -/
def sortKeyLe (a b : List Nat) : Bool :=
  if a.length < b.length then true
  else if a.length = b.length then lexLe a b
  else false

theorem sortKeyLe_total (a b : List Nat) : sortKeyLe a b = true ∨ sortKeyLe b a = true := by
  by_cases h1 : a.length < b.length
  · left; simp [sortKeyLe, h1]
  · by_cases h2 : b.length < a.length
    · right; simp [sortKeyLe, h2]
    · have he : a.length = b.length := Nat.le_antisymm (Nat.le_of_not_lt h2) (Nat.le_of_not_lt h1)
      rcases lexLe_total a b with h | h
      · left; simp [sortKeyLe, he, h]
      · right; simp [sortKeyLe, he.symm, h, Nat.lt_irrefl]

/-- Insert an element into a list sorted by `le` (helper for `sortLe`). -/
def insertSorted {α : Type} (le : α → α → Bool) (x : α) : List α → List α
  | [] => [x]
  | y :: ys => if le x y then x :: y :: ys else y :: insertSorted le x ys

/-- Insertion sort, modelling Python's `sorted(..., key=...)` (the claims
never depend on how ties between duplicates are ordered). -/
def sortLe {α : Type} (le : α → α → Bool) : List α → List α
  | [] => []
  | x :: xs => insertSorted le x (sortLe le xs)

theorem mem_insertSorted {α : Type} (le : α → α → Bool) (x a : α) (l : List α) :
    a ∈ insertSorted le x l ↔ a = x ∨ a ∈ l := by
  induction l with
  | nil => simp [insertSorted]
  | cons y ys ih =>
    by_cases h : le x y
    · simp [insertSorted, h]
    · simp [insertSorted, h, ih]
      tauto

theorem mem_sortLe {α : Type} (le : α → α → Bool) (a : α) (l : List α) :
    a ∈ sortLe le l ↔ a ∈ l := by
  induction l with
  | nil => simp [sortLe]
  | cons x xs ih => simp [sortLe, mem_insertSorted, ih]

theorem length_insertSorted {α : Type} (le : α → α → Bool) (x : α) (l : List α) :
    (insertSorted le x l).length = l.length + 1 := by
  induction l with
  | nil => rfl
  | cons y ys ih =>
    by_cases h : le x y
    · simp [insertSorted, h]
    · simp [insertSorted, h, ih]

theorem length_sortLe {α : Type} (le : α → α → Bool) (l : List α) :
    (sortLe le l).length = l.length := by
  induction l with
  | nil => rfl
  | cons x xs ih => simp [sortLe, length_insertSorted, ih]

/-- Adjacent-ordered: each element is `le` its successor. This is the sense
in which the replay order is ascending. -/
def sortedBy {α : Type} (le : α → α → Bool) (l : List α) : Prop :=
  List.Chain' (fun a b => le a b = true) l

theorem sortedBy_insertSorted {α : Type} (le : α → α → Bool)
    (htotal : ∀ a b : α, le a b = true ∨ le b a = true) (x : α) (l : List α)
    (hl : sortedBy le l) : sortedBy le (insertSorted le x l) := by
  induction l with
  | nil => simp [insertSorted, sortedBy]
  | cons y ys ih =>
    rcases List.chain'_cons'.mp hl with ⟨hy, hys⟩
    unfold sortedBy
    by_cases h : le x y
    · simp only [insertSorted, if_pos h]
      refine List.chain'_cons'.mpr ⟨?_, hl⟩
      intro z hz
      simp at hz
      subst hz
      exact h
    · simp only [insertSorted, if_neg h]
      have hyx : le y x = true := by
        rcases htotal x y with hxy | hyx
        · exact absurd hxy h
        · exact hyx
      refine List.chain'_cons'.mpr ⟨?_, ih hys⟩
      intro z hz
      match ys, hz with
      | [], hz =>
        simp [insertSorted] at hz
        subst hz
        exact hyx
      | w :: ws, hz =>
        by_cases hxw : le x w
        · simp [insertSorted, hxw] at hz
          subst hz
          exact hyx
        · simp [insertSorted, hxw] at hz
          subst hz
          exact hy w rfl

theorem sortedBy_sortLe {α : Type} (le : α → α → Bool)
    (htotal : ∀ a b : α, le a b = true ∨ le b a = true) (l : List α) :
    sortedBy le (sortLe le l) := by
  induction l with
  | nil => simp [sortLe, sortedBy]
  | cons x xs ih => exact sortedBy_insertSorted le htotal x (sortLe le xs) ih

/-- Python `rnd.randint(lo, hi)` (inclusive bounds) driven by an oracle
value `v`. -/
def randint (lo hi v : Nat) : Nat := lo + v % (hi + 1 - lo)

/-- `_draw_predecessor(rnd, xs)`: left to right, while no strictly smaller
byte has been drawn sample `c ∈ [0, x]` and mark strict when `c < x`;
afterwards sample uniform bytes. `rand` is the oracle, `k` its cursor. -/
def draw_predecessor (rand : Nat → Nat) (k : Nat) (anyStrict : Bool) : List Nat → List Nat
  | [] => []
  | x :: xs =>
    let c := if anyStrict then randint 0 255 (rand k) else randint 0 x (rand k)
    c :: draw_predecessor rand (k + 1) (anyStrict || decide (c < x)) xs

/-- `_draw_successor(rnd, xs)`: symmetric to `_draw_predecessor` with
`c ∈ [x, 255]` and strict when `c > x`. -/
def draw_successor (rand : Nat → Nat) (k : Nat) (anyStrict : Bool) : List Nat → List Nat
  | [] => []
  | x :: xs =>
    let c := if anyStrict then randint 0 255 (rand k) else randint x 255 (rand k)
    c :: draw_successor rand (k + 1) (anyStrict || decide (x < c)) xs

theorem draw_predecessor_length (rand : Nat → Nat) (xs : List Nat) :
    ∀ k st, (draw_predecessor rand k st xs).length = xs.length := by
  induction xs with
  | nil => intro k st; rfl
  | cons x xs ih => intro k st; simp [draw_predecessor, ih]

theorem draw_successor_length (rand : Nat → Nat) (xs : List Nat) :
    ∀ k st, (draw_successor rand k st xs).length = xs.length := by
  induction xs with
  | nil => intro k st; rfl
  | cons x xs ih => intro k st; simp [draw_successor, ih]

theorem draw_predecessor_le (rand : Nat → Nat) (xs : List Nat) :
    ∀ k, lexLe (draw_predecessor rand k false xs) xs = true := by
  induction xs with
  | nil => intro k; rfl
  | cons x xs ih =>
    intro k
    have hc : randint 0 x (rand k) ≤ x := by
      simp only [randint, Nat.sub_zero, Nat.zero_add]
      exact Nat.lt_succ_iff.mp (Nat.mod_lt (rand k) (Nat.succ_pos x))
    by_cases hlt : randint 0 x (rand k) < x
    · simp [draw_predecessor, lexLe, hlt]
    · have he : randint 0 x (rand k) = x := Nat.le_antisymm hc (Nat.le_of_not_lt hlt)
      simp [draw_predecessor, lexLe, he, ih]

theorem draw_successor_ge (rand : Nat → Nat) (xs : List Nat) :
    ∀ k, lexLe xs (draw_successor rand k false xs) = true := by
  induction xs with
  | nil => intro k; rfl
  | cons x xs ih =>
    intro k
    have hc : x ≤ randint x 255 (rand k) := by
      unfold randint
      omega
    by_cases hlt : x < randint x 255 (rand k)
    · simp [draw_successor, lexLe, hlt]
    · have he : randint x 255 (rand k) = x := Nat.le_antisymm (Nat.le_of_not_lt hlt) hc
      simp [draw_successor, lexLe, he, ih]

/-- Claim C7: for every non-empty byte sequence `x` and every random source,
`_draw_predecessor(rnd, x)` is lexicographically `≤ x` and
`_draw_successor(rnd, x)` is lexicographically `≥ x`, and both outputs have
exactly the length of `x`. -/
theorem c7_draw_pred_succ_lex (rand1 rand2 : Nat → Nat) (xs : List Nat)
    (hne : xs ≠ []) :
    (draw_predecessor rand1 0 false xs).length = xs.length
    ∧ lexLe (draw_predecessor rand1 0 false xs) xs = true
    ∧ (draw_successor rand2 0 false xs).length = xs.length
    ∧ lexLe xs (draw_successor rand2 0 false xs) = true :=
  ⟨draw_predecessor_length rand1 xs 0 false, draw_predecessor_le rand1 xs 0,
   draw_successor_length rand2 xs 0 false, draw_successor_ge rand2 xs 0⟩

/-- Witness for C7: the theorem applied at `xs = [3, 1]` with zero oracles. -/
theorem c7_draw_pred_succ_lex_witness :
    (draw_predecessor (fun _ => 0) 0 false [3, 1]).length = ([3, 1] : List Nat).length
    ∧ lexLe (draw_predecessor (fun _ => 0) 0 false [3, 1]) [3, 1] = true
    ∧ (draw_successor (fun _ => 0) 0 false [3, 1]).length = ([3, 1] : List Nat).length
    ∧ lexLe [3, 1] (draw_successor (fun _ => 0) 0 false [3, 1]) = true :=
  c7_draw_pred_succ_lex (fun _ => 0) (fun _ => 0) [3, 1] (by decide)

/-- The confirmation loop at the head of `shrink_interesting_examples`:
replay each stored interesting example's buffer (`replay` abstracts the
status the user test function assigns to the replayed buffer) and exit
`flaky` at the first replay whose status is not INTERESTING; `none` means
the loop finished without exiting. -/
def shrinkReplayLoop (replay : List Nat → Status) : List TestData → Option ExitReason
  | [] => none
  | d :: rest =>
    if replay d.buffer ≠ Status.INTERESTING then some ExitReason.flaky
    else shrinkReplayLoop replay rest

/-- `shrink_interesting_examples` runs the confirmation loop over the stored
examples sorted by `sort_key` of their buffers. -/
def shrinkConfirm (replay : List Nat → Status) (stored : List TestData) : Option ExitReason :=
  shrinkReplayLoop replay (sortLe (fun d1 d2 => sortKeyLe d1.buffer d2.buffer) stored)

theorem shrinkReplayLoop_flaky (replay : List Nat → Status) (l : List TestData)
    (h : ∃ d ∈ l, replay d.buffer ≠ Status.INTERESTING) :
    shrinkReplayLoop replay l = some ExitReason.flaky := by
  induction l with
  | nil => simp at h
  | cons d rest ih =>
    by_cases hd : replay d.buffer = Status.INTERESTING
    · have hrest : ∃ e ∈ rest, replay e.buffer ≠ Status.INTERESTING := by
        rcases h with ⟨e, he, hne⟩
        rcases List.mem_cons.mp he with he | he
        · subst he; exact absurd hd hne
        · exact ⟨e, he, hne⟩
      simp [shrinkReplayLoop, hd, ih hrest]
    · simp [shrinkReplayLoop, hd]

theorem shrinkReplayLoop_ok (replay : List Nat → Status) (l : List TestData)
    (h : ∀ d ∈ l, replay d.buffer = Status.INTERESTING) :
    shrinkReplayLoop replay l = none := by
  induction l with
  | nil => rfl
  | cons d rest ih =>
    have hd := h d (List.mem_cons_self d rest)
    have hrest : ∀ e ∈ rest, replay e.buffer = Status.INTERESTING :=
      fun e he => h e (List.mem_cons_of_mem d he)
    simp [shrinkReplayLoop, hd, ih hrest]

/-- Claim C9: in `shrink_interesting_examples`, if replaying some stored
interesting example yields a status other than INTERESTING then the run
exits with reason `flaky`, and if every replay yields INTERESTING the loop
completes without a `flaky` exit. -/
theorem c9_shrink_flaky (replay : List Nat → Status) (stored : List TestData) :
    ((∃ d ∈ stored, replay d.buffer ≠ Status.INTERESTING) →
      shrinkConfirm replay stored = some ExitReason.flaky)
    ∧ ((∀ d ∈ stored, replay d.buffer = Status.INTERESTING) →
      shrinkConfirm replay stored = none) := by
  constructor
  · intro h
    rcases h with ⟨d, hd, hne⟩
    exact shrinkReplayLoop_flaky replay _
      ⟨d, (mem_sortLe _ d stored).mpr hd, hne⟩
  · intro h
    exact shrinkReplayLoop_ok replay _
      (fun d hd => h d ((mem_sortLe _ d stored).mp hd))

/-- A stored interesting example used by witnesses. -/
def dStored : TestData := ⟨[0], Status.INTERESTING, [], [], [], [], 0⟩

/-- Witness for C9: a replay that always returns VALID makes the loop exit
`flaky` on the stored example. -/
theorem c9_shrink_flaky_witness :
    (∃ d ∈ [dStored], (fun _ : List Nat => Status.VALID) d.buffer ≠ Status.INTERESTING)
    ∧ shrinkConfirm (fun _ => Status.VALID) [dStored] = some ExitReason.flaky :=
  ⟨by decide,
   (c9_shrink_flaky (fun _ => Status.VALID) [dStored]).1 (by decide)⟩

/-- `pop_random(random, values)`: pick index `i = r % len`, swap that slot
with the last one and pop. Returns the removed element and the remaining
list; `none` on the empty list (where Python's `randrange` raises). -/
def pop_random {α : Type} (r : Nat) (l : List α) : Option (α × List α) :=
  match l with
  | [] => none
  | a :: _ =>
    let i := r % l.length
    some (l.getD i a, (l.set i (l.getLastD a)).dropLast)

theorem pop_random_length {α : Type} (r : Nat) (l : List α) (x : α) (rest : List α)
    (h : pop_random r l = some (x, rest)) : rest.length + 1 = l.length := by
  match l with
  | [] => simp [pop_random] at h
  | a :: t =>
    simp only [pop_random, Option.some_inj] at h
    have h2 : ((a :: t).set ((r % (a :: t).length)) ((a :: t).getLastD a)).dropLast = rest :=
      congrArg Prod.snd h
    rw [← h2]
    simp

theorem pop_random_ne_nil {α : Type} (r : Nat) (l : List α) (h : l ≠ []) :
    ∃ p, pop_random r l = some p := by
  match l with
  | [] => exact absurd rfl h
  | a :: t => exact ⟨_, rfl⟩

/-- `TargetSelector` state: the best non-INTERESTING status seen, the pool
bound, and the fresh/used partitions. -/
structure SelectorState where
  bestStatus : Status
  poolSize : Nat
  fresh : List TestData
  used : List TestData
deriving DecidableEq

/-- A fresh selector (`TargetSelector.__init__`, with
`pool_size = MUTATION_POOL_SIZE = 100` and `best_status = OVERRUN`). -/
def initSelector : SelectorState := ⟨Status.OVERRUN, 100, [], []⟩

/-- The eviction step at the end of `TargetSelector.add`: when the pool
exceeds `pool_size`, `pop_random` one element from `used_examples` if
non-empty, else from `fresh_examples`. -/
def selectorTrim (r : Nat) (sel : SelectorState) : SelectorState :=
  if sel.poolSize < sel.fresh.length + sel.used.length then
    if sel.used.isEmpty then
      match pop_random r sel.fresh with
      | some (_, rest) => { sel with fresh := rest }
      | none => sel
    else
      match pop_random r sel.used with
      | some (_, rest) => { sel with used := rest }
      | none => sel
  else sel

/-- `TargetSelector.add(data)`; `r` drives the eviction's `pop_random`. -/
def selectorAdd (r : Nat) (sel : SelectorState) (d : TestData) : SelectorState :=
  if d.status = Status.INTERESTING then sel
  else if statusLt d.status sel.bestStatus then sel
  else
    let sel1 := if statusLt sel.bestStatus d.status then
        { sel with bestStatus := d.status, fresh := [], used := [] }
      else sel
    selectorTrim r { sel1 with fresh := sel1.fresh ++ [d] }

/-- `TargetSelector.select()`; `r` drives both random choices. Returns the
selected example and the new state, or `none` when the pool is empty (the
selector's contract forbids calling `select` then). -/
def selectorSelect (r : Nat) (sel : SelectorState) : Option (TestData × SelectorState) :=
  match pop_random r sel.fresh with
  | some (x, rest) => some (x, { sel with fresh := rest, used := sel.used ++ [x] })
  | none =>
    match sel.used with
    | [] => none
    | a :: _ => some (sel.used.getD (r % sel.used.length) a, sel)

/-- One call to the target selector. -/
inductive SelOp where
  | addOp (r : Nat) (d : TestData)
  | selOp (r : Nat)

/-- Run a sequence of `add`/`select` calls; `none` if some `select` was made
on an empty pool. -/
def runSelOps (sel : SelectorState) : List SelOp → Option SelectorState
  | [] => some sel
  | SelOp.addOp r d :: rest => runSelOps (selectorAdd r sel d) rest
  | SelOp.selOp r :: rest =>
    match selectorSelect r sel with
    | none => none
    | some (_, sel2) => runSelOps sel2 rest

/-- The selector pool invariant: bounded size and the configured pool bound. -/
def SelInv (sel : SelectorState) : Prop :=
  sel.fresh.length + sel.used.length ≤ sel.poolSize ∧ sel.poolSize = 100

theorem selectorTrim_bound (r : Nat) (sel : SelectorState)
    (h : sel.fresh.length + sel.used.length ≤ sel.poolSize + 1)
    (hfe : sel.fresh ≠ []) :
    (selectorTrim r sel).fresh.length + (selectorTrim r sel).used.length ≤ sel.poolSize
    ∧ (selectorTrim r sel).poolSize = sel.poolSize := by
  unfold selectorTrim
  by_cases h4 : sel.poolSize < sel.fresh.length + sel.used.length
  · rw [if_pos h4]
    by_cases h5 : sel.used.isEmpty
    · rw [if_pos h5]
      have hu : sel.used = [] := by
        cases hux : sel.used with
        | nil => rfl
        | cons a t => rw [hux] at h5; simp at h5
      rcases pop_random_ne_nil r sel.fresh hfe with ⟨⟨x, rest⟩, hp⟩
      have hlen := pop_random_length r sel.fresh x rest hp
      rw [hp]
      refine ⟨?_, rfl⟩
      simp only [hu, List.length_nil] at h4 h ⊢
      omega
    · rw [if_neg h5]
      have hne : sel.used ≠ [] := by
        intro hh
        simp [hh] at h5
      rcases pop_random_ne_nil r sel.used hne with ⟨⟨x, rest⟩, hp⟩
      have hlen := pop_random_length r sel.used x rest hp
      rw [hp]
      refine ⟨?_, rfl⟩
      simp only []
      omega
  · rw [if_neg h4]
    exact ⟨Nat.le_of_not_lt h4, rfl⟩

theorem selectorTrim_id (r : Nat) (sel : SelectorState)
    (h : ¬ (sel.poolSize < sel.fresh.length + sel.used.length)) :
    selectorTrim r sel = sel := by
  unfold selectorTrim
  rw [if_neg h]

theorem selectorTrim_selInv (r : Nat) (sel : SelectorState)
    (h : sel.fresh.length + sel.used.length ≤ sel.poolSize + 1)
    (hfe : sel.fresh ≠ []) (hpool : sel.poolSize = 100) :
    SelInv (selectorTrim r sel) := by
  rcases selectorTrim_bound r sel h hfe with ⟨ha, hb⟩
  constructor
  · rw [hb]; exact ha
  · rw [hb]; exact hpool

theorem selectorAdd_inv (r : Nat) (sel : SelectorState) (d : TestData)
    (h : SelInv sel) : SelInv (selectorAdd r sel d) := by
  rcases h with ⟨hsize, hpool⟩
  unfold selectorAdd
  by_cases h1 : d.status = Status.INTERESTING
  · simpa [h1] using And.intro hsize hpool
  · simp only [h1, if_false]
    by_cases h2 : statusLt d.status sel.bestStatus
    · simpa [h2] using And.intro hsize hpool
    · simp only [h2, if_false]
      by_cases h3 : statusLt sel.bestStatus d.status
      · refine selectorTrim_selInv r _ ?_ ?_ ?_ <;> simp [h3, hpool]
      · refine selectorTrim_selInv r _ ?_ ?_ ?_ <;> simp [h3, hpool] <;> omega

theorem selectorSelect_inv (r : Nat) (sel : SelectorState) (x : TestData)
    (sel2 : SelectorState) (h : SelInv sel)
    (hs : selectorSelect r sel = some (x, sel2)) : SelInv sel2 := by
  rcases h with ⟨hsize, hpool⟩
  unfold selectorSelect at hs
  rcases hf : pop_random r sel.fresh with _ | ⟨y, rest⟩
  · rw [hf] at hs
    match hu : sel.used with
    | [] => rw [hu] at hs; exact absurd hs (by simp)
    | a :: t =>
      rw [hu] at hs
      simp only [Option.some_inj] at hs
      have h2 : sel = sel2 := congrArg Prod.snd hs
      rw [← h2]
      exact ⟨hsize, hpool⟩
  · rw [hf] at hs
    simp only [Option.some_inj] at hs
    have h2 : sel2 = { sel with fresh := rest, used := sel.used ++ [y] } :=
      (congrArg Prod.snd hs).symm
    subst h2
    have hlen := pop_random_length r sel.fresh y rest hf
    constructor
    · simp
      omega
    · exact hpool

theorem runSelOps_inv (ops : List SelOp) (sel0 : SelectorState) (h0 : SelInv sel0) :
    ∀ sel, runSelOps sel0 ops = some sel → SelInv sel := by
  induction ops generalizing sel0 with
  | nil =>
    intro sel h
    simp only [runSelOps, Option.some_inj] at h
    subst h
    exact h0
  | cons op rest ih =>
    intro sel h
    match op with
    | SelOp.addOp r d =>
      exact ih (selectorAdd r sel0 d) (selectorAdd_inv r sel0 d h0) sel h
    | SelOp.selOp r =>
      simp only [runSelOps] at h
      rcases hs : selectorSelect r sel0 with _ | ⟨x, sel2⟩
      · rw [hs] at h; exact absurd h (by simp)
      · rw [hs] at h
        exact ih sel2 (selectorSelect_inv r sel0 x sel2 h0 hs) sel h

/-- Claim C6: for every sequence of `add`/`select` calls on the target
selector (`select` only succeeding on a non-empty pool), the invariant
`|fresh| + |used| ≤ pool_size = 100` holds after each call, and an `add`
whose (non-INTERESTING) status strictly exceeds `best_status` empties both
partitions before inserting, leaving exactly the new example in `fresh`. -/
theorem c6_selector_invariant (ops : List SelOp) (sel : SelectorState)
    (h : runSelOps initSelector ops = some sel) :
    sel.fresh.length + sel.used.length ≤ 100
    ∧ (∀ r d, d.status ≠ Status.INTERESTING →
        statusLt sel.bestStatus d.status = true →
        (selectorAdd r sel d).fresh = [d] ∧ (selectorAdd r sel d).used = []) := by
  have hinv := runSelOps_inv ops initSelector (by constructor <;> simp [initSelector]) sel h
  rcases hinv with ⟨hsize, hpool⟩
  constructor
  · omega
  · intro r d hni hlt
    have hnlt : statusLt d.status sel.bestStatus = false := by
      unfold statusLt at hlt ⊢
      simp at hlt ⊢
      omega
    constructor <;> simp [selectorAdd, selectorTrim, hni, hnlt, hlt, hpool]

/-- Concrete data used by the C6 witness. -/
def dInvalidW : TestData := ⟨[2], Status.INVALID, [], [], [], [], 0⟩

/-- Concrete data used by the C6 witness. -/
def dValidW : TestData := ⟨[1], Status.VALID, [], [], [], [], 0⟩

/-- The selector state reached by one `add` of an INVALID example. -/
def selW : SelectorState := ⟨Status.INVALID, 100, [dInvalidW], []⟩

/-- Witness for C6: after `add(INVALID)` the pool bound holds, and adding a
VALID example (strictly better status) clears both partitions. -/
theorem c6_selector_invariant_witness :
    selW.fresh.length + selW.used.length ≤ 100
    ∧ (selectorAdd 0 selW dValidW).fresh = [dValidW]
    ∧ (selectorAdd 0 selW dValidW).used = [] := by
  have h := c6_selector_invariant [SelOp.addOp 0 dInvalidW] selW (by decide)
  refine ⟨h.1, ?_, ?_⟩
  · exact (h.2 0 dValidW (by decide) (by decide)).1
  · exact (h.2 0 dValidW (by decide) (by decide)).2

/-- Python slice `l[i : i + n]` (truncating at the end of the list). -/
def slice (l : List Nat) (i n : Nat) : List Nat := (l.drop i).take n

/-- The mutator's `reuse_existing(data, n)` bit strategy. It reads
`data.block_starts` and `data.buffer` — the data object currently under
construction — and never touches the mutation origin (`target_data[0]`).
`choiceIdx` drives `random.choice`; `uniformBytes` models `uniform(random, n)`. -/
def reuse_existing (data : TestData) (n : Nat) (choiceIdx : Nat)
    (uniformBytes : Nat → List Nat) : List Nat :=
  match (alookup data.blockStarts n).getD [] with
  | [] => uniformBytes n
  | a :: t => slice data.buffer ((a :: t).getD (choiceIdx % (a :: t).length) a) n

/-- Claim C4 (amended): `reuse_existing` draws from the block starts of the
data generated so far, not from the mutation origin: when the current data's
`block_starts[n]` is non-empty the result is the `n` bytes of the current
data's buffer at one of those starts, otherwise it is `n` uniform bytes. -/
theorem c4_reuse_existing_code (data : TestData) (n choiceIdx : Nat)
    (uniformBytes : Nat → List Nat) :
    (∀ starts, alookup data.blockStarts n = some starts → starts ≠ [] →
      ∃ i ∈ starts,
        reuse_existing data n choiceIdx uniformBytes = slice data.buffer i n)
    ∧ ((alookup data.blockStarts n).getD [] = [] →
      reuse_existing data n choiceIdx uniformBytes = uniformBytes n) := by
  constructor
  · intro starts hl hne
    match hs : starts with
    | [] => exact absurd rfl hne
    | a :: t =>
      subst hs
      refine ⟨(a :: t).getD (choiceIdx % (a :: t).length) a, ?_, ?_⟩
      · have hlt : choiceIdx % (a :: t).length < (a :: t).length :=
          Nat.mod_lt choiceIdx (Nat.succ_pos t.length)
        rw [List.getD_eq_getElem?_getD, List.getElem?_eq_getElem hlt]
        exact List.getElem_mem hlt
      · unfold reuse_existing
        rw [hl]
        rfl
  · intro hz
    unfold reuse_existing
    rw [hz]

/-- The mutation origin used in the C4 counterexample: it has a block of
length 1 starting at 0. -/
def originC4 : TestData := ⟨[9, 9], Status.VALID, [], [], [(0, 1)], [(1, [0])], 0⟩

/-- The in-progress data used in the C4 counterexample: no blocks yet. -/
def dataC4 : TestData := ⟨[], Status.VALID, [], [], [], [], 0⟩

/-- Counterexample to C4 as stated: the origin's list of block starts of
length 1 is non-empty, yet `reuse_existing` returns uniform bytes that match
no length-1 slice of the origin's buffer at those starts — it consults the
current data, not the origin. -/
theorem c4_counterexample :
    (alookup originC4.blockStarts 1).getD [] ≠ []
    ∧ (∀ i ∈ (alookup originC4.blockStarts 1).getD [],
        reuse_existing dataC4 1 0 (fun k => List.replicate k 3) ≠ slice originC4.buffer i 1)
    ∧ reuse_existing dataC4 1 0 (fun k => List.replicate k 3) = [3] := by
  refine ⟨by decide, ?_, by decide⟩
  decide

/-- Data with one block of length 2, used by the C4 witness. -/
def dataC4b : TestData := ⟨[7, 8, 9], Status.VALID, [], [], [(0, 2)], [(2, [0])], 0⟩

/-- Witness for C4 (amended): both branches evaluated at concrete inputs. -/
theorem c4_reuse_existing_code_witness :
    (∃ i ∈ ([0] : List Nat),
      reuse_existing dataC4b 2 0 (fun k => List.replicate k 3) = slice dataC4b.buffer i 2)
    ∧ reuse_existing dataC4 1 0 (fun k => List.replicate k 3) =
        (fun k => List.replicate k 3) 1 :=
  ⟨(c4_reuse_existing_code dataC4b 2 0 (fun k => List.replicate k 3)).1 [0] rfl (by decide),
   (c4_reuse_existing_code dataC4 1 0 (fun k => List.replicate k 3)).2 (by decide)⟩

/-- `max(2, ceil(0.1 * max_examples))`, the desired replay-corpus size in
`reuse_existing_examples`. -/
def desiredSize (maxExamples : Nat) : Nat := max 2 ((maxExamples + 9) / 10)

/-- One `extra_key` round of `reuse_existing_examples`: when the corpus is
still short of the desired size, fetch the extra corpus, down-sample it to
the shortfall when it is larger (`sample` models `self.random.sample`), sort
the extras by `sort_key`, and append them. -/
def extendCorpus (sample : List (List Nat) → Nat → List (List Nat))
    (desired : Nat) (corpus extraCorpus : List (List Nat)) : List (List Nat) :=
  if corpus.length < desired then
    corpus ++ sortLe sortKeyLe
      (if extraCorpus.length ≤ desired - corpus.length then extraCorpus
       else sample extraCorpus (desired - corpus.length))
  else corpus

/-- The corpus that `reuse_existing_examples` replays: the primary corpus
sorted by `sort_key`, then extended from the secondary and covering keys. -/
def reuseCorpus (sample : List (List Nat) → Nat → List (List Nat))
    (maxExamples : Nat) (primary secondary covering : List (List Nat)) : List (List Nat) :=
  extendCorpus sample (desiredSize maxExamples)
    (extendCorpus sample (desiredSize maxExamples) (sortLe sortKeyLe primary) secondary)
    covering

theorem extendCorpus_length (sample : List (List Nat) → Nat → List (List Nat))
    (desired : Nat) (corpus extraCorpus : List (List Nat))
    (hsample : ∀ l k, k ≤ l.length → (sample l k).length = k) :
    (extendCorpus sample desired corpus extraCorpus).length ≤ max corpus.length desired := by
  unfold extendCorpus
  by_cases h : corpus.length < desired
  · rw [if_pos h]
    by_cases h2 : extraCorpus.length ≤ desired - corpus.length
    · rw [if_pos h2]
      simp only [List.length_append, length_sortLe]
      omega
    · rw [if_neg h2]
      have := hsample extraCorpus (desired - corpus.length) (by omega)
      simp only [List.length_append, length_sortLe, this]
      omega
  · rw [if_neg h]
    omega

theorem extendCorpus_structure (sample : List (List Nat) → Nat → List (List Nat))
    (desired : Nat) (corpus extraCorpus : List (List Nat)) :
    ∃ e, extendCorpus sample desired corpus extraCorpus = corpus ++ e
      ∧ sortedBy sortKeyLe e := by
  unfold extendCorpus
  by_cases h : corpus.length < desired
  · rw [if_pos h]
    exact ⟨_, rfl, sortedBy_sortLe sortKeyLe sortKeyLe_total _⟩
  · rw [if_neg h]
    exact ⟨[], (List.append_nil corpus).symm, List.chain'_nil⟩

/-- Claim C8 (amended): `reuse_existing_examples` replays the whole primary
corpus in ascending `sort_key` order followed by at most
`max(2, ceil(0.1 * max_examples)) - |corpus so far|` secondary and covering
extras, each batch ascending among itself; the total replay count is at most
`max(|primary|, max(2, ceil(0.1 * max_examples)))`. -/
theorem c8_reuse_corpus_amended (sample : List (List Nat) → Nat → List (List Nat))
    (maxExamples : Nat) (primary secondary covering : List (List Nat))
    (hsample : ∀ l k, k ≤ l.length → (sample l k).length = k) :
    (reuseCorpus sample maxExamples primary secondary covering).length
      ≤ max primary.length (desiredSize maxExamples)
    ∧ ∃ e1 e2, reuseCorpus sample maxExamples primary secondary covering
          = sortLe sortKeyLe primary ++ e1 ++ e2
        ∧ sortedBy sortKeyLe (sortLe sortKeyLe primary)
        ∧ sortedBy sortKeyLe e1 ∧ sortedBy sortKeyLe e2 := by
  constructor
  · have h1 := extendCorpus_length sample (desiredSize maxExamples)
      (sortLe sortKeyLe primary) secondary hsample
    have h2 := extendCorpus_length sample (desiredSize maxExamples)
      (extendCorpus sample (desiredSize maxExamples) (sortLe sortKeyLe primary) secondary)
      covering hsample
    unfold reuseCorpus
    rw [length_sortLe] at h1
    omega
  · rcases extendCorpus_structure sample (desiredSize maxExamples)
      (sortLe sortKeyLe primary) secondary with ⟨e1, he1, hs1⟩
    rcases extendCorpus_structure sample (desiredSize maxExamples)
      (extendCorpus sample (desiredSize maxExamples) (sortLe sortKeyLe primary) secondary)
      covering with ⟨e2, he2, hs2⟩
    refine ⟨e1, e2, ?_, sortedBy_sortLe sortKeyLe sortKeyLe_total primary, hs1, hs2⟩
    unfold reuseCorpus
    rw [he2, he1, List.append_assoc]

/-- Counterexample to C8 as stated: with `max_examples = 10` the claimed
total bound is `max(2, ceil(1)) = 2`, but a primary corpus of three buffers
is replayed in full; and a small secondary buffer is replayed after a larger
primary one, so the replay order is not globally ascending in `sort_key`. -/
theorem c8_counterexample :
    desiredSize 10 = 2
    ∧ (reuseCorpus (fun l k => l.take k) 10 [[0], [1], [2]] [] []).length = 3
    ∧ reuseCorpus (fun l k => l.take k) 10 [[1, 1]] [[0]] [] = [[1, 1], [0]]
    ∧ ¬ List.Chain' (fun a b => sortKeyLe a b = true)
        (reuseCorpus (fun l k => l.take k) 10 [[1, 1]] [[0]] []) := by
  refine ⟨by decide, by decide, by decide, ?_⟩
  intro h
  rw [show reuseCorpus (fun l k => l.take k) 10 [[1, 1]] [[0]] [] = [[1, 1], [0]] by decide] at h
  rcases List.chain'_cons.mp h with ⟨hab, _⟩
  exact absurd hab (by decide)

/-- Witness for C8 (amended): the theorem applied to a concrete database
state with `random.sample` modelled as taking a list's first elements. -/
theorem c8_reuse_corpus_amended_witness :
    (reuseCorpus (fun l k => l.take k) 10 [[1, 1]] [[0]] []).length
      ≤ max ([[1, 1]] : List (List Nat)).length (desiredSize 10)
    ∧ ∃ e1 e2, reuseCorpus (fun l k => l.take k) 10 [[1, 1]] [[0]] []
          = sortLe sortKeyLe [[1, 1]] ++ e1 ++ e2
        ∧ sortedBy sortKeyLe (sortLe sortKeyLe [[1, 1]])
        ∧ sortedBy sortKeyLe e1 ∧ sortedBy sortKeyLe e2 :=
  c8_reuse_corpus_amended (fun l k => l.take k) 10 [[1, 1]] [[0]] []
    (fun l k hk => by simpa using Nat.min_eq_left hk)

/-- `_is_simple_mask(mask)`: `mask & (mask + 1) == 0`. -/
def is_simple_mask (m : Nat) : Bool := Nat.land m (m + 1) == 0

/-- A node of the prefix tree: a partially populated branch (a dict from
byte value to child node index) or a leaf holding a stored result. -/
inductive TreeNode where
  | branch (children : List (Nat × Nat))
  | leaf (d : TestData)
deriving DecidableEq

/-- The tree-related engine state: `self.tree`, `self.dead`, `self.forced`,
`self.masks`, `self.block_sizes`, plus the zero-bound `cap`
(`settings.buffer_size // 2`). -/
structure TreeState where
  tree : List TreeNode
  dead : List Nat
  forced : List (Nat × Nat)
  masks : List (Nat × Nat)
  blockSizes : List (Nat × Nat)
  cap : Nat
deriving DecidableEq

/-- `reset_tree_to_empty`: a single empty root branch, nothing dead. -/
def initTree (cap : Nat) : TreeState := ⟨[TreeNode.branch []], [], [], [], [], cap⟩

/-- The child of node `n` along byte `b` (defined when `n` is a branch
holding `b`). -/
def childLookup (s : TreeState) (n b : Nat) : Option Nat :=
  match s.tree[n]? with
  | some (TreeNode.branch ch) => alookup ch b
  | _ => none

/-- Follow raw bytes down the tree starting from `node`. -/
def walkFrom (s : TreeState) : Nat → List Nat → Option Nat
  | node, [] => some node
  | node, b :: bs =>
    match childLookup s node b with
    | some m => walkFrom s m bs
    | none => none

/-- Follow raw bytes down the tree from the root. -/
def walkPath (s : TreeState) (bs : List Nat) : Option Nat := walkFrom s 0 bs

/-- Add a node id to the dead set (`self.dead.add`). -/
def deadAdd (dead : List Nat) (n : Nat) : List Nat :=
  if n ∈ dead then dead else n :: dead

/-- `self.dead.update(l)`. -/
def deadAddMany (dead : List Nat) (l : List Nat) : List Nat :=
  l.foldl deadAdd dead

/-- Lines 243-250 of the insert walk: if buffer position `i` was forced,
record `forced[node] = b`; if it was masked, record the mask. -/
def noteIndex (s : TreeState) (d : TestData) (i node b : Nat) : TreeState :=
  match alookup d.maskedIndices i with
  | some m =>
    if i ∈ d.forcedIndices then
      { s with forced := aset s.forced node b, masks := aset s.masks node m }
    else { s with masks := aset s.masks node m }
  | none =>
    if i ∈ d.forcedIndices then { s with forced := aset s.forced node b }
    else s

/-- Lines 255-261 of the insert walk: create a missing branch child of
`node` (whose branch holds `ch` without byte `b`) at the fresh index
`s.tree.length`. -/
def createChild (s : TreeState) (node : Nat) (ch : List (Nat × Nat)) (b : Nat) : TreeState :=
  { s with tree := ((s.tree ++ [TreeNode.branch []]).set node (TreeNode.branch (aset ch b s.tree.length))) }

/-- The walk at the start of the tree update in `test_function`
(lines 233-268): descend along the buffer, recording the visited node
indices, noting forced and masked positions, creating missing branch
children, and stopping early upon entering a dead node. Returns the updated
state, the visited indices and the final node index; `none` when a
non-branch node would have to be traversed (where Python raises). -/
def insertWalk (d : TestData) : TreeState → Nat → Nat → List Nat → List Nat →
    Option (TreeState × List Nat × Nat)
  | s, _, node, acc, [] => some (s, acc, node)
  | s, i, node, acc, b :: rest =>
    match (noteIndex s d i node b).tree[node]? with
    | some (TreeNode.branch ch) =>
      match alookup ch b with
      | some nxt =>
        if nxt ∈ (noteIndex s d i node b).dead then
          some (noteIndex s d i node b, acc ++ [node], nxt)
        else insertWalk d (noteIndex s d i node b) (i + 1) nxt (acc ++ [node]) rest
      | none =>
        if (noteIndex s d i node b).tree.length ∈
            (createChild (noteIndex s d i node b) node ch b).dead then
          some (createChild (noteIndex s d i node b) node ch b, acc ++ [node],
            (noteIndex s d i node b).tree.length)
        else insertWalk d (createChild (noteIndex s d i node b) node ch b) (i + 1)
          ((noteIndex s d i node b).tree.length) (acc ++ [node]) rest
    | _ => none

/-- Lines 270-276: for each `(u, v)` of `all_block_bounds()` record
`block_sizes[indices[u]] = v - u`, stopping at the first `u` beyond the
recorded path. -/
def recordBlocks (idxs : List Nat) : TreeState → List (Nat × Nat) → TreeState
  | s, [] => s
  | s, (u, v) :: rest =>
    if idxs.length ≤ u then s
    else recordBlocks idxs
      { s with blockSizes := aset s.blockSizes (idxs.getD u 0) (v - u) } rest

/-- Lines 292-313: review the visited nodes in reverse; a node with no byte
values left to explore (saturated or forced) whose children are all dead
becomes dead; stop at the first still-alive node. `none` models the
simple-mask assertion failing. -/
def reverseDeaden : TreeState → List Nat → Option TreeState
  | s, [] => some s
  | s, j :: rest =>
    let mask := (alookup s.masks j).getD 255
    if is_simple_mask mask = false then none
    else
      let chCount := match s.tree[j]? with
        | some (TreeNode.branch ch) => ch.length
        | _ => 0
      if chCount < mask + 1 ∧ (alookup s.forced j).isNone then some s
      else
        let allDead := match s.tree[j]? with
          | some (TreeNode.branch ch) => ch.all (fun p => p.2 ∈ s.dead)
          | _ => true
        if allDead then reverseDeaden { s with dead := deadAdd s.dead j } rest
        else some s

/-- Lines 270-280: record the block sizes, then mark every visited node at
position `cap` or beyond as dead (the zero-bound cap). -/
def capKill (s1 : TreeState) (idxs : List Nat) (d : TestData) : TreeState :=
  let sR := recordBlocks idxs s1 d.blockBounds
  { sR with dead := deadAddMany sR.dead (idxs.drop sR.cap) }

/-- Lines 285-290: mark the terminal node dead and store the result there as
a leaf, overwriting the branch placeholder. -/
def storeLeaf (s : TreeState) (t : Nat) (d : TestData) : TreeState :=
  { s with dead := deadAdd s.dead t, tree := s.tree.set t (TreeNode.leaf d) }

/-- The tree update performed by `test_function` (lines 233-313): walk the
buffer, record block sizes, kill the path beyond the zero-bound cap, and —
for a non-OVERRUN result whose terminal node is live — store the result as a
leaf there and mark newly exhausted ancestors dead in reverse order. -/
def insertData (s0 : TreeState) (d : TestData) : Option TreeState :=
  match insertWalk d s0 0 0 [] d.buffer with
  | none => none
  | some (s1, idxs, terminal) =>
    if d.status ≠ Status.OVERRUN ∧ terminal ∉ (capKill s1 idxs d).dead then
      reverseDeaden (storeLeaf (capKill s1 idxs d) terminal d) idxs.reverse
    else some (capKill s1 idxs d)

/-- Insert a sequence of frozen results in order. -/
def insertAll : TreeState → List TestData → Option TreeState
  | s, [] => some s
  | s, d :: ds =>
    match insertData s d with
    | none => none
    | some s2 => insertAll s2 ds

/-- The tree states reachable by inserting the listed results into a fresh
tree with the given cap (the tree after `reset_tree_to_empty` followed by
one `test_function` tree update per element of `ds`). -/
def insertList (cap : Nat) (ds : List TestData) : Option TreeState :=
  insertAll (initTree cap) ds

/-- The outcome of one random probe in `generate_novel_prefix`: the loop
breaks with a finished novel byte sequence, or descends to a child. -/
inductive GnpStep where
  | done (p : List Nat)
  | descend (node : Nat) (pfx : List Nat) (rand : List Nat)

/-- The random part of one `generate_novel_prefix` iteration
(lines 404-431): provisionally pick `c = randrange(0, ub)`; a missing child
finishes the novel byte sequence; a dead child forces a re-pick among the
byte values whose children are missing or live (`assert choices`, then
`random.choice`); otherwise descend. `none` models an exhausted oracle or a
failed assertion. -/
def gnpProbe (s : TreeState) (rand : List Nat) (pfx : List Nat)
    (ub : Nat) (ch : List (Nat × Nat)) : Option GnpStep :=
  match rand with
  | [] => none
  | v :: rand2 =>
    let c := v % ub
    match alookup ch c with
    | none => some (GnpStep.done (pfx ++ [c]))
    | some nxt =>
      if nxt ∈ s.dead then
        match (List.range ub).filter (fun b =>
            match alookup ch b with
            | some m => !(s.dead.contains m)
            | none => true) with
        | [] => none
        | a :: t =>
          match rand2 with
          | [] => none
          | w :: rand3 =>
            let c2 := (a :: t).getD (w % (a :: t).length) a
            match alookup ch c2 with
            | none => some (GnpStep.done (pfx ++ [c2]))
            | some m2 => some (GnpStep.descend m2 (pfx ++ [c2]) rand3)
      else some (GnpStep.descend nxt (pfx ++ [c]) rand2)

/-- `generate_novel_prefix` (lines 372-433) with explicit fuel and random
oracle; `none` models any run in which the Python loop does not return
normally (assertion failure, malformed tree, oracle or fuel exhaustion).
A node with a forced byte appends it and descends; note that Python appends
the forced byte before looking the child up, so a forced byte whose child is
missing falls through to the random probe with the byte already appended. -/
def gnpAux (s : TreeState) : Nat → List Nat → Nat → List Nat → Option (List Nat)
  | 0, _, _, _ => none
  | fuel + 1, rand, node, pfx =>
    if s.cap ≤ pfx.length then none
    else if node ∈ s.dead then none
    else
      let mask := (alookup s.masks node).getD 255
      if is_simple_mask mask = false then none
      else
        match s.tree[node]? with
        | some (TreeNode.branch ch) =>
          match alookup s.forced node with
          | some c =>
            match alookup ch c with
            | some nxt => gnpAux s fuel rand nxt (pfx ++ [c])
            | none =>
              match gnpProbe s rand (pfx ++ [c]) (mask + 1) ch with
              | some (GnpStep.done p) => some p
              | some (GnpStep.descend n2 p2 r2) => gnpAux s fuel r2 n2 p2
              | none => none
          | none =>
            match gnpProbe s rand pfx (mask + 1) ch with
            | some (GnpStep.done p) => some p
            | some (GnpStep.descend n2 p2 r2) => gnpAux s fuel r2 n2 p2
            | none => none
        | _ => none

/-- `generate_novel_prefix` from the root. -/
def generateNovel (s : TreeState) (rand : List Nat) (fuel : Nat) : Option (List Nat) :=
  gnpAux s fuel rand 0 []

/-- One position's forced/mask substitution: both `cached_test_function` and
`prescreen_buffer` pretend the buffer holds the forced value, masked. -/
def substByte (s : TreeState) (node c : Nat) : Nat :=
  let c1 := match alookup s.forced node with
    | some v => v
    | none => c
  match alookup s.masks node with
  | some m => Nat.land c1 m
  | none => c1

/-- The tree-lookup loop of `cached_test_function` (lines 1065-1096):
traverse the tree along the substituted buffer; `some d` when a stored
result is reached (the cache hit — the test function is not invoked);
`none` when the walk leaves the tree or exhausts the buffer, after which
the test function runs normally. -/
def cachedWalk (s : TreeState) : Nat → List Nat → Option TestData
  | _, [] => none
  | node, c :: rest =>
    match s.tree[node]? with
    | some (TreeNode.branch ch) =>
      match alookup ch (substByte s node c) with
      | none => none
      | some nxt =>
        match s.tree[nxt]? with
        | some (TreeNode.leaf d) => some d
        | _ => cachedWalk s nxt rest
    | _ => none

/-- `prescreen_buffer` (lines 1003-1056): `false` when replaying the buffer
is known redundant (a visited node is dead, a recorded block size cannot fit
in the remaining bytes, or the whole buffer is consumed without leaving the
tree — an overrun), `true` when the traversal leaves the tree. -/
def prescreenWalk (s : TreeState) : Nat → List Nat → Bool
  | _, [] => false
  | node, c :: rest =>
    if node ∈ s.dead then false
    else if (match alookup s.blockSizes node with
             | some bs => decide (rest.length + 1 < bs)
             | none => false) then false
    else
      match s.tree[node]? with
      | some (TreeNode.branch ch) =>
        match alookup ch (substByte s node c) with
        | none => true
        | some nxt => prescreenWalk s nxt rest
      | _ => false

/-- `prescreen_buffer` from the root. -/
def prescreen_buffer (s : TreeState) (b : List Nat) : Bool := prescreenWalk s 0 b

/-- The substituted byte sequence that `cached_test_function` actually
follows for an initial segment of a buffer, with the node it reaches. -/
def substWalk (s : TreeState) : Nat → List Nat → Option (List Nat × Nat)
  | node, [] => some ([], node)
  | node, c :: rest =>
    match s.tree[node]? with
    | some (TreeNode.branch ch) =>
      match alookup ch (substByte s node c) with
      | none => none
      | some nxt =>
        match substWalk s nxt rest with
        | some (cs, m) => some (substByte s node c :: cs, m)
        | none => none
    | _ => none

theorem walkFrom_append (s : TreeState) (n : Nat) (xs : List Nat) (b : Nat) :
    walkFrom s n (xs ++ [b]) =
      match walkFrom s n xs with
      | some m => childLookup s m b
      | none => none := by
  induction xs generalizing n with
  | nil =>
    simp only [List.nil_append, walkFrom]
    cases childLookup s n b <;> rfl
  | cons x xs ih =>
    simp only [List.cons_append, walkFrom]
    cases childLookup s n x with
    | none => rfl
    | some m => exact ih m

theorem walkFrom_take (s : TreeState) (bs : List Nat) :
    ∀ n m, walkFrom s n bs = some m →
    ∀ k, ∃ u, walkFrom s n (bs.take k) = some u := by
  induction bs with
  | nil =>
    intro n m h k
    exact ⟨n, by simp [walkFrom]⟩
  | cons b rest ih =>
    intro n m h k
    simp only [walkFrom] at h
    cases hc : childLookup s n b with
    | none => rw [hc] at h; exact absurd h (by simp)
    | some u =>
      rw [hc] at h
      match k with
      | 0 => exact ⟨n, by simp [walkFrom]⟩
      | k + 1 =>
        rcases ih u m h k with ⟨w, hw⟩
        exact ⟨w, by simp [walkFrom, hc, hw]⟩

/-- Every edge of `s` is an edge of `s2`. -/
def EdgePreserved (s s2 : TreeState) : Prop :=
  ∀ n b m, childLookup s n b = some m → childLookup s2 n b = some m

/-- Every edge of `s2` is an edge of `s` or points at a fresh node. -/
def EdgeOldOrNew (s s2 : TreeState) : Prop :=
  ∀ n b m, childLookup s2 n b = some m → childLookup s n b = some m ∨ s.tree.length ≤ m

/-- The dead set only grows. -/
def DeadMono (s s2 : TreeState) : Prop := ∀ n, n ∈ s.dead → n ∈ s2.dead

/-- Every edge of `s` survives into `s2` unless its source node died. -/
def EdgePersistOrDead (s s2 : TreeState) : Prop :=
  ∀ n b m, childLookup s n b = some m → childLookup s2 n b = some m ∨ n ∈ s2.dead

theorem walkFrom_mono (s s2 : TreeState) (hp : EdgePreserved s s2) (bs : List Nat) :
    ∀ n m, walkFrom s n bs = some m → walkFrom s2 n bs = some m := by
  induction bs with
  | nil => intro n m h; exact h
  | cons b rest ih =>
    intro n m h
    simp only [walkFrom] at h ⊢
    cases hc : childLookup s n b with
    | none => rw [hc] at h; exact absurd h (by simp)
    | some u =>
      rw [hc] at h
      rw [hp n b u hc]
      exact ih u m h

theorem deadAdd_mem (dead : List Nat) (n x : Nat) (h : x ∈ dead) : x ∈ deadAdd dead n := by
  unfold deadAdd
  by_cases hn : n ∈ dead
  · rw [if_pos hn]; exact h
  · rw [if_neg hn]; exact List.mem_cons_of_mem n h

theorem deadAdd_self (dead : List Nat) (n : Nat) : n ∈ deadAdd dead n := by
  unfold deadAdd
  by_cases hn : n ∈ dead
  · rw [if_pos hn]; exact hn
  · rw [if_neg hn]; exact List.mem_cons_self n dead

theorem deadAdd_sub (dead : List Nat) (n x : Nat) (h : x ∈ deadAdd dead n) :
    x ∈ dead ∨ x = n := by
  unfold deadAdd at h
  by_cases hn : n ∈ dead
  · rw [if_pos hn] at h; exact Or.inl h
  · rw [if_neg hn] at h
    rcases List.mem_cons.mp h with h | h
    · exact Or.inr h
    · exact Or.inl h

theorem deadAddMany_mem (l : List Nat) :
    ∀ dead x, x ∈ dead → x ∈ deadAddMany dead l := by
  induction l with
  | nil => intro dead x h; exact h
  | cons a rest ih =>
    intro dead x h
    exact ih (deadAdd dead a) x (deadAdd_mem dead a x h)

/-- Frame facts for `recordBlocks`: it only touches `blockSizes`. -/
theorem recordBlocks_frame (idxs : List Nat) (bb : List (Nat × Nat)) :
    ∀ s, (recordBlocks idxs s bb).tree = s.tree
      ∧ (recordBlocks idxs s bb).dead = s.dead
      ∧ (recordBlocks idxs s bb).forced = s.forced
      ∧ (recordBlocks idxs s bb).masks = s.masks
      ∧ (recordBlocks idxs s bb).cap = s.cap := by
  induction bb with
  | nil => intro s; exact ⟨rfl, rfl, rfl, rfl, rfl⟩
  | cons uv rest ih =>
    intro s
    match uv with
    | (u, v) =>
      unfold recordBlocks
      by_cases h : idxs.length ≤ u
      · rw [if_pos h]
        exact ⟨rfl, rfl, rfl, rfl, rfl⟩
      · rw [if_neg h]
        exact ih _

/-- Frame facts for `reverseDeaden`: it only grows `dead`. -/
theorem reverseDeaden_frame (l : List Nat) :
    ∀ s s2, reverseDeaden s l = some s2 →
      s2.tree = s.tree ∧ s2.forced = s.forced ∧ s2.masks = s.masks
      ∧ s2.blockSizes = s.blockSizes ∧ s2.cap = s.cap ∧ DeadMono s s2 := by
  induction l with
  | nil =>
    intro s s2 h
    simp only [reverseDeaden, Option.some_inj] at h
    subst h
    exact ⟨rfl, rfl, rfl, rfl, rfl, fun n hn => hn⟩
  | cons j rest ih =>
    intro s s2 h
    unfold reverseDeaden at h
    by_cases h1 : is_simple_mask ((alookup s.masks j).getD 255) = false
    · rw [if_pos h1] at h
      exact absurd h (by simp)
    · rw [if_neg h1] at h
      by_cases h2 : (match s.tree[j]? with
          | some (TreeNode.branch ch) => ch.length
          | _ => 0) < (alookup s.masks j).getD 255 + 1 ∧ (alookup s.forced j).isNone
      · rw [if_pos h2] at h
        simp only [Option.some_inj] at h
        subst h
        exact ⟨rfl, rfl, rfl, rfl, rfl, fun n hn => hn⟩
      · rw [if_neg h2] at h
        by_cases h3 : (match s.tree[j]? with
            | some (TreeNode.branch ch) => ch.all (fun p => p.2 ∈ s.dead)
            | _ => true) = true
        · rw [if_pos h3] at h
          rcases ih _ _ h with ⟨ht, hf, hm, hb, hc, hd⟩
          exact ⟨ht, hf, hm, hb, hc, fun n hn => hd n (deadAdd_mem s.dead j n hn)⟩
        · rw [if_neg h3] at h
          simp only [Option.some_inj] at h
          subst h
          exact ⟨rfl, rfl, rfl, rfl, rfl, fun n hn => hn⟩

theorem noteIndex_frame (s : TreeState) (d : TestData) (i node b : Nat) :
    (noteIndex s d i node b).tree = s.tree
    ∧ (noteIndex s d i node b).dead = s.dead
    ∧ (noteIndex s d i node b).blockSizes = s.blockSizes
    ∧ (noteIndex s d i node b).cap = s.cap := by
  unfold noteIndex
  cases alookup d.maskedIndices i <;> by_cases h : i ∈ d.forcedIndices <;> simp [h]

theorem noteIndex_forced (s : TreeState) (d : TestData) (i node b : Nat) :
    ∀ n c, alookup (noteIndex s d i node b).forced n = some c →
      alookup s.forced n = some c ∨ (n = node ∧ c = b) := by
  intro n c h
  by_cases hf : i ∈ d.forcedIndices
  · have he : (noteIndex s d i node b).forced = aset s.forced node b := by
      unfold noteIndex
      cases alookup d.maskedIndices i <;> simp [hf]
    rw [he] at h
    rcases alookup_aset_cases s.forced node n b c h with ⟨h1, h2⟩ | h1
    · exact Or.inr ⟨h1, h2⟩
    · exact Or.inl h1
  · have he : (noteIndex s d i node b).forced = s.forced := by
      unfold noteIndex
      cases alookup d.maskedIndices i <;> simp [hf]
    rw [he] at h
    exact Or.inl h

theorem childLookup_congr (s s2 : TreeState) (h : s2.tree = s.tree) (n b : Nat) :
    childLookup s2 n b = childLookup s n b := by
  unfold childLookup
  rw [h]

theorem walkFrom_congr (s s2 : TreeState) (h : s2.tree = s.tree) (bs : List Nat) :
    ∀ n, walkFrom s2 n bs = walkFrom s n bs := by
  induction bs with
  | nil => intro n; rfl
  | cons b rest ih =>
    intro n
    simp only [walkFrom, childLookup_congr s s2 h]
    cases childLookup s n b with
    | none => rfl
    | some m => exact ih m

theorem childLookup_create (s : TreeState) (node b : Nat) (ch : List (Nat × Nat))
    (hn : s.tree[node]? = some (TreeNode.branch ch)) :
    childLookup (createChild s node ch b) node b = some s.tree.length
    ∧ (∀ b2, b2 ≠ b → childLookup (createChild s node ch b) node b2 = childLookup s node b2)
    ∧ (∀ n2 b2, n2 ≠ node → childLookup (createChild s node ch b) n2 b2 = childLookup s n2 b2) := by
  have hlt : node < s.tree.length := by
    rcases List.getElem?_eq_some.mp hn with ⟨hh, _⟩
    exact hh
  have hset : ((s.tree ++ [TreeNode.branch []]).set node
      (TreeNode.branch (aset ch b s.tree.length)))[node]?
      = some (TreeNode.branch (aset ch b s.tree.length)) :=
    List.getElem?_set_eq (by simp; omega)
  refine ⟨?_, ?_, ?_⟩
  · simp only [childLookup, createChild, hset]
    exact alookup_aset_self ch b s.tree.length
  · intro b2 hb2
    simp only [childLookup, createChild, hset, hn]
    exact alookup_aset_ne ch b b2 s.tree.length hb2
  · intro n2 b2 hn2
    have hset2 : ((s.tree ++ [TreeNode.branch []]).set node
        (TreeNode.branch (aset ch b s.tree.length)))[n2]?
        = (s.tree ++ [TreeNode.branch []])[n2]? :=
      List.getElem?_set_ne (fun hh => hn2 hh.symm)
    simp only [childLookup, createChild, hset2]
    rw [List.getElem?_append]
    by_cases hlt3 : n2 < s.tree.length
    · rw [if_pos hlt3]
    · rw [if_neg hlt3]
      rw [List.getElem?_len_le (Nat.le_of_not_lt hlt3)]
      rcases hk : n2 - s.tree.length with _ | k <;> simp [alookup]

theorem childLookup_set_leaf (s : TreeState) (t : Nat) (d : TestData) (dead2 : List Nat) :
    (∀ b, childLookup
       { s with dead := dead2, tree := s.tree.set t (TreeNode.leaf d) } t b = none)
    ∧ (∀ n b, n ≠ t → childLookup
       { s with dead := dead2, tree := s.tree.set t (TreeNode.leaf d) } n b
        = childLookup s n b) := by
  constructor
  · intro b
    simp only [childLookup]
    rw [List.getElem?_set]
    by_cases h : t < s.tree.length <;> simp [h]
  · intro n b hn
    simp only [childLookup]
    rw [List.getElem?_set_ne (fun hh => hn hh.symm)]

theorem walkFrom_le (s : TreeState)
    (heb : ∀ n b m, childLookup s n b = some m → n < m ∧ m < s.tree.length)
    (bs : List Nat) :
    ∀ n m, walkFrom s n bs = some m → n ≤ m := by
  induction bs with
  | nil =>
    intro n m h
    simp only [walkFrom, Option.some_inj] at h
    omega
  | cons b rest ih =>
    intro n m h
    simp only [walkFrom] at h
    cases hc : childLookup s n b with
    | none => rw [hc] at h; exact absurd h (by simp)
    | some u =>
      rw [hc] at h
      have h1 := (heb n b u hc).1
      have h2 := ih u m h
      omega

theorem eq_nil_or_append {α : Type} (l : List α) : l = [] ∨ ∃ L b, l = L ++ [b] := by
  rcases List.eq_nil_or_concat l with h | ⟨L, b, h⟩
  · exact Or.inl h
  · exact Or.inr ⟨L, b, by rw [h, List.concat_eq_append]⟩

theorem walk_after_set (s : TreeState) (t : Nat) (d : TestData) (dead2 : List Nat)
    (heb : ∀ n b m, childLookup s n b = some m → n < m ∧ m < s.tree.length)
    (bs : List Nat) :
    ∀ m, walkFrom s 0 bs = some m → m ≤ t →
    walkFrom { s with dead := dead2, tree := s.tree.set t (TreeNode.leaf d) } 0 bs = some m := by
  induction bs using List.reverseRecOn with
  | nil => intro m h hle; exact h
  | append_singleton ys b ih =>
    intro m h hle
    rw [walkFrom_append] at h ⊢
    cases hy : walkFrom s 0 ys with
    | none => rw [hy] at h; exact absurd h (by simp)
    | some u =>
      rw [hy] at h
      have h2 : childLookup s u b = some m := h
      have hub := heb u b m h2
      have hu : walkFrom { s with dead := dead2, tree := s.tree.set t (TreeNode.leaf d) } 0 ys = some u :=
        ih u hy (by omega)
      rw [hu]
      show childLookup { s with dead := dead2, tree := s.tree.set t (TreeNode.leaf d) } u b = some m
      rw [(childLookup_set_leaf s t d dead2).2 u b (by omega)]
      exact h2

theorem walkPath_unique (s : TreeState)
    (heb : ∀ n b m, childLookup s n b = some m → n < m ∧ m < s.tree.length)
    (hpu : ∀ n1 b1 n2 b2 m, childLookup s n1 b1 = some m →
      childLookup s n2 b2 = some m → n1 = n2 ∧ b1 = b2)
    (xs : List Nat) :
    ∀ ys m, walkFrom s 0 xs = some m → walkFrom s 0 ys = some m → xs = ys := by
  induction xs using List.reverseRecOn with
  | nil =>
    intro ys m hx hy
    simp only [walkFrom, Option.some_inj] at hx
    rcases eq_nil_or_append ys with rfl | ⟨zs, b, rfl⟩
    · rfl
    · rw [walkFrom_append] at hy
      cases hz : walkFrom s 0 zs with
      | none => rw [hz] at hy; exact absurd hy (by simp)
      | some u =>
        rw [hz] at hy
        have := (heb u b m hy).1
        omega
  | append_singleton zs c ih =>
    intro ys m hx hy
    rw [walkFrom_append] at hx
    cases hz : walkFrom s 0 zs with
    | none => rw [hz] at hx; exact absurd hx (by simp)
    | some u =>
      rw [hz] at hx
      rcases eq_nil_or_append ys with rfl | ⟨ws, b, rfl⟩
      · simp only [walkFrom, Option.some_inj] at hy
        have := (heb u c m hx).1
        omega
      · rw [walkFrom_append] at hy
        cases hw : walkFrom s 0 ws with
        | none => rw [hw] at hy; exact absurd hy (by simp)
        | some u2 =>
          rw [hw] at hy
          rcases hpu u c u2 b m hx hy with ⟨he1, he2⟩
          subst he1
          subst he2
          rw [ih ws u hz hw]

theorem createChild_length (s : TreeState) (node b : Nat) (ch : List (Nat × Nat)) :
    (createChild s node ch b).tree.length = s.tree.length + 1 := by
  simp [createChild]

theorem createChild_dead (s : TreeState) (node b : Nat) (ch : List (Nat × Nat)) :
    (createChild s node ch b).dead = s.dead := rfl

theorem createChild_blockSizes (s : TreeState) (node b : Nat) (ch : List (Nat × Nat)) :
    (createChild s node ch b).blockSizes = s.blockSizes := rfl

theorem createChild_cap (s : TreeState) (node b : Nat) (ch : List (Nat × Nat)) :
    (createChild s node ch b).cap = s.cap := rfl

theorem createChild_leaf (s : TreeState) (node b : Nat) (ch : List (Nat × Nat))
    (hn : s.tree[node]? = some (TreeNode.branch ch)) (m : Nat) (dd : TestData) :
    (createChild s node ch b).tree[m]? = some (TreeNode.leaf dd)
      ↔ s.tree[m]? = some (TreeNode.leaf dd) := by
  by_cases hm : m = node
  · subst hm
    have hset : ((s.tree ++ [TreeNode.branch []]).set m
        (TreeNode.branch (aset ch b s.tree.length)))[m]?
        = some (TreeNode.branch (aset ch b s.tree.length)) := by
      apply List.getElem?_set_eq
      rcases List.getElem?_eq_some.mp hn with ⟨hh, _⟩
      simp
      omega
    simp [createChild, hset, hn]
  · have hset2 : ((s.tree ++ [TreeNode.branch []]).set node
        (TreeNode.branch (aset ch b s.tree.length)))[m]?
        = (s.tree ++ [TreeNode.branch []])[m]? :=
      List.getElem?_set_ne (fun hh => hm hh.symm)
    simp only [createChild]
    rw [hset2, List.getElem?_append]
    by_cases hlt3 : m < s.tree.length
    · rw [if_pos hlt3]
    · rw [if_neg hlt3]
      rw [List.getElem?_len_le (Nat.le_of_not_lt hlt3)]
      rcases hk : m - s.tree.length with _ | k <;> simp

/-- The full behaviour of the insert walk needed downstream: frame facts,
edge preservation and freshness, leaf stability, and the walked path. -/
theorem insertWalk_spec (d : TestData) (rest : List Nat) :
    ∀ s i node acc s1 idxs term,
    insertWalk d s i node acc rest = some (s1, idxs, term) →
    s1.dead = s.dead ∧ s1.blockSizes = s.blockSizes ∧ s1.cap = s.cap
    ∧ s.tree.length ≤ s1.tree.length
    ∧ EdgePreserved s s1 ∧ EdgeOldOrNew s s1
    ∧ (∀ (m : Nat) (dd : TestData),
        s1.tree[m]? = some (TreeNode.leaf dd) ↔ s.tree[m]? = some (TreeNode.leaf dd))
    ∧ ∃ consumed remaining, rest = consumed ++ remaining
        ∧ walkFrom s1 node consumed = some term
        ∧ (remaining = [] ∨ term ∈ s1.dead) := by
  induction rest with
  | nil =>
    intro s i node acc s1 idxs term h
    simp only [insertWalk, Option.some_inj, Prod.mk.injEq] at h
    obtain ⟨rfl, rfl, rfl⟩ := h
    refine ⟨rfl, rfl, rfl, Nat.le_refl _, fun n b m hh => hh, fun n b m hh => Or.inl hh,
      ?_, [], [], rfl, rfl, Or.inl rfl⟩
    intro m dd
    exact Iff.rfl
  | cons b rest ih =>
    intro s i node acc s1 idxs term h
    unfold insertWalk at h
    have hframe := noteIndex_frame s d i node b
    split at h
    · next ch heq =>
      have hcongr : ∀ n b2, childLookup (noteIndex s d i node b) n b2 = childLookup s n b2 :=
        childLookup_congr s _ hframe.1
      split at h
      · next nxt hcb =>
        -- existing child
        split at h
        · -- child is dead: the walk stops here
          next hdead =>
          simp only [Option.some_inj, Prod.mk.injEq] at h
          obtain ⟨rfl, rfl, rfl⟩ := h
          refine ⟨hframe.2.1, hframe.2.2.1, hframe.2.2.2, le_of_eq (by rw [hframe.1]),
            fun n b2 m hh => by rw [hcongr]; exact hh,
            fun n b2 m hh => Or.inl (by rw [← hcongr n b2]; exact hh),
            fun m dd => by rw [hframe.1],
            [b], rest, rfl, ?_, Or.inr hdead⟩
          simp only [walkFrom]
          rw [show childLookup (noteIndex s d i node b) node b = some nxt by
            unfold childLookup; rw [heq]; exact hcb]
        · -- child is live: recurse
          next hdead =>
          rcases ih (noteIndex s d i node b) (i + 1) nxt (acc ++ [node]) s1 idxs term h with
            ⟨hd, hb, hc, hl, hp, ho, hlf, consumed, remaining, hsplit, hwalk, hterm⟩
          refine ⟨by rw [hd, hframe.2.1], by rw [hb, hframe.2.2.1],
            by rw [hc, hframe.2.2.2], le_trans (le_of_eq (by rw [hframe.1])) hl,
            fun n b2 m hh => hp n b2 m (by rw [hcongr]; exact hh),
            fun n b2 m hh => ?_,
            fun m dd => by rw [hlf m dd, hframe.1],
            b :: consumed, remaining, by simp [hsplit], ?_, ?_⟩
          · rcases ho n b2 m hh with h2 | h2
            · exact Or.inl (by rw [← hcongr n b2]; exact h2)
            · exact Or.inr (by rw [← hframe.1]; exact h2)
          · simp only [walkFrom]
            have hstep : childLookup (noteIndex s d i node b) node b = some nxt := by
              unfold childLookup; rw [heq]; exact hcb
            rw [hp node b nxt hstep]
            exact hwalk
          · rcases hterm with h2 | h2
            · exact Or.inl h2
            · exact Or.inr h2
      · next hcb =>
        -- missing child: create it
        have hcc := childLookup_create (noteIndex s d i node b) node b ch heq
        have hccl := createChild_length (noteIndex s d i node b) node b ch
        have hnone : childLookup (noteIndex s d i node b) node b = none := by
          unfold childLookup
          rw [heq]
          exact hcb
        have hpresN : EdgePreserved (noteIndex s d i node b)
            (createChild (noteIndex s d i node b) node ch b) := by
          intro n b2 m hh
          by_cases hn2 : n = node
          · by_cases hb2 : b2 = b
            · rw [hn2, hb2, hnone] at hh
              exact absurd hh (by simp)
            · rw [hn2] at hh ⊢
              rw [hcc.2.1 b2 hb2]
              exact hh
          · rw [hcc.2.2 n b2 hn2]
            exact hh
        have honN : ∀ n b2 m,
            childLookup (createChild (noteIndex s d i node b) node ch b) n b2 = some m →
            childLookup (noteIndex s d i node b) n b2 = some m
            ∨ (noteIndex s d i node b).tree.length ≤ m := by
          intro n b2 m hh
          by_cases hn2 : n = node
          · by_cases hb2 : b2 = b
            · rw [hn2, hb2, hcc.1] at hh
              exact Or.inr (le_of_eq (Option.some_inj.mp hh))
            · rw [hn2] at hh ⊢
              rw [hcc.2.1 b2 hb2] at hh
              exact Or.inl hh
          · rw [hcc.2.2 n b2 hn2] at hh
            exact Or.inl hh
        split at h
        · -- fresh node already dead (cannot happen, but mirrors the code)
          next hdead =>
          simp only [Option.some_inj, Prod.mk.injEq] at h
          obtain ⟨rfl, rfl, rfl⟩ := h
          refine ⟨by rw [createChild_dead, hframe.2.1],
            by rw [createChild_blockSizes, hframe.2.2.1],
            by rw [createChild_cap, hframe.2.2.2], ?_,
            fun n b2 m hh => hpresN n b2 m (by rw [hcongr]; exact hh),
            fun n b2 m hh => ?_,
            fun m dd => by rw [createChild_leaf _ node b ch heq m dd, hframe.1],
            [b], rest, rfl, ?_, Or.inr hdead⟩
          · rw [hccl, hframe.1]; omega
          · rcases honN n b2 m hh with h2 | h2
            · exact Or.inl (by rw [← hcongr n b2]; exact h2)
            · exact Or.inr (by rw [← hframe.1]; exact h2)
          · simp only [walkFrom]
            rw [hcc.1]
        · -- descend into the fresh node
          next hdead =>
          rcases ih (createChild (noteIndex s d i node b) node ch b) (i + 1)
              ((noteIndex s d i node b).tree.length) (acc ++ [node]) s1 idxs term h with
            ⟨hd, hb, hc, hl, hp, ho, hlf, consumed, remaining, hsplit, hwalk, hterm⟩
          refine ⟨by rw [hd, createChild_dead, hframe.2.1],
            by rw [hb, createChild_blockSizes, hframe.2.2.1],
            by rw [hc, createChild_cap, hframe.2.2.2], ?_,
            fun n b2 m hh => hp n b2 m (hpresN n b2 m (by rw [hcongr]; exact hh)),
            fun n b2 m hh => ?_,
            fun m dd => by
              rw [hlf m dd, createChild_leaf _ node b ch heq m dd, hframe.1],
            b :: consumed, remaining, by simp [hsplit], ?_, hterm⟩
          · rw [hccl] at hl
            rw [hframe.1] at hl
            omega
          · rcases ho n b2 m hh with h2 | h2
            · rcases honN n b2 m h2 with h3 | h3
              · exact Or.inl (by rw [← hcongr n b2]; exact h3)
              · exact Or.inr (by rw [← hframe.1]; exact h3)
            · rw [hccl, hframe.1] at h2
              exact Or.inr (by omega)
          · simp only [walkFrom]
            rw [hp node b ((noteIndex s d i node b).tree.length) (hcc.1)]
            exact hwalk
    · next x hleaf =>
      exact absurd h (by simp)

/-- Invariant-dependent behaviour of the insert walk: the edge-id bounds,
parent uniqueness and the forced-byte/child relation are maintained, and the
final node is a valid index. -/
theorem insertWalk_inv (d : TestData) (rest : List Nat) :
    ∀ s i node acc s1 idxs term,
    insertWalk d s i node acc rest = some (s1, idxs, term) →
    (∀ n b m, childLookup s n b = some m → n < m ∧ m < s.tree.length) →
    (∀ n1 b1 n2 b2 m, childLookup s n1 b1 = some m → childLookup s n2 b2 = some m →
      n1 = n2 ∧ b1 = b2) →
    (∀ n c, alookup s.forced n = some c → n ∈ s.dead ∨ ∃ m, childLookup s n c = some m) →
    node < s.tree.length →
    (∀ n b m, childLookup s1 n b = some m → n < m ∧ m < s1.tree.length)
    ∧ (∀ n1 b1 n2 b2 m, childLookup s1 n1 b1 = some m → childLookup s1 n2 b2 = some m →
        n1 = n2 ∧ b1 = b2)
    ∧ (∀ n c, alookup s1.forced n = some c → n ∈ s1.dead ∨ ∃ m, childLookup s1 n c = some m)
    ∧ term < s1.tree.length := by
  induction rest with
  | nil =>
    intro s i node acc s1 idxs term h heb hpu hfc hnode
    simp only [insertWalk, Option.some_inj, Prod.mk.injEq] at h
    obtain ⟨rfl, rfl, rfl⟩ := h
    exact ⟨heb, hpu, hfc, hnode⟩
  | cons b rest ih =>
    intro s i node acc s1 idxs term h heb hpu hfc hnode
    unfold insertWalk at h
    have hframe := noteIndex_frame s d i node b
    split at h
    · next ch heq =>
      have hcongr : ∀ n b2, childLookup (noteIndex s d i node b) n b2 = childLookup s n b2 :=
        childLookup_congr s _ hframe.1
      have hlenN : (noteIndex s d i node b).tree.length = s.tree.length := by rw [hframe.1]
      have hebN : ∀ n b2 m, childLookup (noteIndex s d i node b) n b2 = some m →
          n < m ∧ m < (noteIndex s d i node b).tree.length := by
        intro n b2 m hh
        rw [hcongr] at hh
        rw [hlenN]
        exact heb n b2 m hh
      have hpuN : ∀ n1 b1 n2 b2 m, childLookup (noteIndex s d i node b) n1 b1 = some m →
          childLookup (noteIndex s d i node b) n2 b2 = some m → n1 = n2 ∧ b1 = b2 := by
        intro n1 b1 n2 b2 m h1 h2
        rw [hcongr] at h1 h2
        exact hpu n1 b1 n2 b2 m h1 h2
      split at h
      · next nxt hcb =>
        have hedge : childLookup (noteIndex s d i node b) node b = some nxt := by
          unfold childLookup
          rw [heq]
          exact hcb
        have hfcN : ∀ n c, alookup (noteIndex s d i node b).forced n = some c →
            n ∈ (noteIndex s d i node b).dead
            ∨ ∃ m, childLookup (noteIndex s d i node b) n c = some m := by
          intro n c hh
          rcases noteIndex_forced s d i node b n c hh with hold | ⟨rfl, rfl⟩
          · rcases hfc n c hold with hdd | ⟨m, hm⟩
            · exact Or.inl (by rw [hframe.2.1]; exact hdd)
            · exact Or.inr ⟨m, by rw [hcongr]; exact hm⟩
          · exact Or.inr ⟨nxt, hedge⟩
        split at h
        · next hdead =>
          simp only [Option.some_inj, Prod.mk.injEq] at h
          obtain ⟨rfl, rfl, rfl⟩ := h
          exact ⟨hebN, hpuN, hfcN, (hebN node b nxt hedge).2⟩
        · next hdead =>
          exact ih (noteIndex s d i node b) (i + 1) nxt (acc ++ [node]) s1 idxs term h
            hebN hpuN hfcN (hebN node b nxt hedge).2
      · next hcb =>
        have hcc := childLookup_create (noteIndex s d i node b) node b ch heq
        have hccl := createChild_length (noteIndex s d i node b) node b ch
        have hnone : childLookup (noteIndex s d i node b) node b = none := by
          unfold childLookup
          rw [heq]
          exact hcb
        have hnodeN : node < (noteIndex s d i node b).tree.length := by
          rw [hlenN]
          exact hnode
        have hebC : ∀ n b2 m,
            childLookup (createChild (noteIndex s d i node b) node ch b) n b2 = some m →
            n < m ∧ m < (createChild (noteIndex s d i node b) node ch b).tree.length := by
          intro n b2 m hh
          rw [hccl]
          by_cases hn2 : n = node
          · by_cases hb2 : b2 = b
            · rw [hn2, hb2, hcc.1] at hh
              have hm : m = (noteIndex s d i node b).tree.length :=
                (Option.some_inj.mp hh).symm
              constructor
              · rw [hn2, hm]; exact hnodeN
              · omega
            · rw [hn2] at hh
              rw [hcc.2.1 b2 hb2] at hh
              have := hebN node b2 m hh
              rw [hn2]
              omega
          · rw [hcc.2.2 n b2 hn2] at hh
            have := hebN n b2 m hh
            omega
        have hpuC : ∀ n1 b1 n2 b2 m,
            childLookup (createChild (noteIndex s d i node b) node ch b) n1 b1 = some m →
            childLookup (createChild (noteIndex s d i node b) node ch b) n2 b2 = some m →
            n1 = n2 ∧ b1 = b2 := by
          intro n1 b1 n2 b2 m h1 h2
          have edgeCases : ∀ n3 b3,
              childLookup (createChild (noteIndex s d i node b) node ch b) n3 b3 = some m →
              (n3 = node ∧ b3 = b ∧ m = (noteIndex s d i node b).tree.length)
              ∨ (childLookup (noteIndex s d i node b) n3 b3 = some m
                 ∧ m < (noteIndex s d i node b).tree.length) := by
            intro n3 b3 hh
            by_cases hn3 : n3 = node
            · by_cases hb3 : b3 = b
              · rw [hn3, hb3, hcc.1] at hh
                exact Or.inl ⟨hn3, hb3, (Option.some_inj.mp hh).symm⟩
              · rw [hn3] at hh
                rw [hcc.2.1 b3 hb3] at hh
                exact Or.inr ⟨by rw [hn3]; exact hh, (hebN node b3 m hh).2⟩
            · rw [hcc.2.2 n3 b3 hn3] at hh
              exact Or.inr ⟨hh, (hebN n3 b3 m hh).2⟩
          rcases edgeCases n1 b1 h1 with ⟨e1, e2, e3⟩ | ⟨e1, e2⟩
          · rcases edgeCases n2 b2 h2 with ⟨f1, f2, _⟩ | ⟨_, f2⟩
            · exact ⟨by rw [e1, f1], by rw [e2, f2]⟩
            · omega
          · rcases edgeCases n2 b2 h2 with ⟨_, _, f3⟩ | ⟨f1, _⟩
            · omega
            · exact hpuN n1 b1 n2 b2 m e1 f1
        have hfcC : ∀ n c,
            alookup (createChild (noteIndex s d i node b) node ch b).forced n = some c →
            n ∈ (createChild (noteIndex s d i node b) node ch b).dead
            ∨ ∃ m, childLookup (createChild (noteIndex s d i node b) node ch b) n c = some m := by
          intro n c hh
          have hh2 : alookup (noteIndex s d i node b).forced n = some c := hh
          rcases noteIndex_forced s d i node b n c hh2 with hold | ⟨rfl, rfl⟩
          · rcases hfc n c hold with hdd | ⟨m, hm⟩
            · exact Or.inl (by rw [createChild_dead, hframe.2.1]; exact hdd)
            · refine Or.inr ⟨m, ?_⟩
              by_cases hn2 : n = node
              · by_cases hb2 : c = b
                · rw [hn2, hb2] at hm
                  rw [← hcongr node b] at hm
                  rw [hnone] at hm
                  exact absurd hm (by simp)
                · rw [hn2]
                  rw [hcc.2.1 c hb2, hcongr]
                  rw [← hn2]
                  exact hm
              · rw [hcc.2.2 n c hn2, hcongr]
                exact hm
          · exact Or.inr ⟨_, hcc.1⟩
        split at h
        · next hdead =>
          simp only [Option.some_inj, Prod.mk.injEq] at h
          obtain ⟨rfl, rfl, rfl⟩ := h
          refine ⟨hebC, hpuC, hfcC, ?_⟩
          rw [hccl]
          omega
        · next hdead =>
          refine ih (createChild (noteIndex s d i node b) node ch b) (i + 1)
            ((noteIndex s d i node b).tree.length) (acc ++ [node]) s1 idxs term h
            hebC hpuC hfcC ?_
          rw [hccl]
          omega
    · next x hleaf =>
      exact absurd h (by simp)

theorem capKill_frame (s1 : TreeState) (idxs : List Nat) (d : TestData) :
    (capKill s1 idxs d).tree = s1.tree
    ∧ (capKill s1 idxs d).forced = s1.forced
    ∧ (capKill s1 idxs d).masks = s1.masks
    ∧ (capKill s1 idxs d).cap = s1.cap
    ∧ DeadMono s1 (capKill s1 idxs d) := by
  have h := recordBlocks_frame idxs d.blockBounds s1
  unfold capKill
  exact ⟨h.1, h.2.2.1, h.2.2.2.1, h.2.2.2.2,
    fun n hn => deadAddMany_mem _ _ n (by rw [h.2.1]; exact hn)⟩

theorem storeLeaf_frame (s : TreeState) (t : Nat) (d : TestData) :
    (storeLeaf s t d).forced = s.forced ∧ (storeLeaf s t d).masks = s.masks
    ∧ (storeLeaf s t d).blockSizes = s.blockSizes ∧ (storeLeaf s t d).cap = s.cap
    ∧ DeadMono s (storeLeaf s t d) ∧ t ∈ (storeLeaf s t d).dead
    ∧ (storeLeaf s t d).tree.length = s.tree.length := by
  refine ⟨rfl, rfl, rfl, rfl, fun n hn => deadAdd_mem s.dead t n hn, deadAdd_self s.dead t, ?_⟩
  simp [storeLeaf]

theorem storeLeaf_child (s : TreeState) (t : Nat) (d : TestData) :
    (∀ b, childLookup (storeLeaf s t d) t b = none)
    ∧ (∀ n b, n ≠ t → childLookup (storeLeaf s t d) n b = childLookup s n b) :=
  childLookup_set_leaf s t d (deadAdd s.dead t)

theorem storeLeaf_walk (s : TreeState) (t : Nat) (d : TestData)
    (heb : ∀ n b m, childLookup s n b = some m → n < m ∧ m < s.tree.length)
    (bs : List Nat) (m : Nat) (h : walkFrom s 0 bs = some m) (hle : m ≤ t) :
    walkFrom (storeLeaf s t d) 0 bs = some m :=
  walk_after_set s t d (deadAdd s.dead t) heb bs m h hle

theorem storeLeaf_tree_get (s : TreeState) (t : Nat) (d : TestData) (ht : t < s.tree.length) :
    (storeLeaf s t d).tree[t]? = some (TreeNode.leaf d) := by
  simp only [storeLeaf]
  exact List.getElem?_set_eq ht

theorem storeLeaf_tree_get_ne (s : TreeState) (t : Nat) (d : TestData) (m : Nat) (hm : m ≠ t) :
    (storeLeaf s t d).tree[m]? = s.tree[m]? := by
  simp only [storeLeaf]
  exact List.getElem?_set_ne (fun hh => hm hh.symm)

/-- Unpack a successful `insertData` into its walk and its two exits. -/
theorem insertData_cases (s : TreeState) (d : TestData) (s2 : TreeState)
    (h : insertData s d = some s2) :
    ∃ s1 idxs term,
      insertWalk d s 0 0 [] d.buffer = some (s1, idxs, term)
      ∧ ((¬ (d.status ≠ Status.OVERRUN ∧ term ∉ (capKill s1 idxs d).dead)
            ∧ s2 = capKill s1 idxs d)
         ∨ (d.status ≠ Status.OVERRUN ∧ term ∉ (capKill s1 idxs d).dead
            ∧ reverseDeaden (storeLeaf (capKill s1 idxs d) term d) idxs.reverse = some s2)) := by
  unfold insertData at h
  split at h
  · exact absurd h (by simp)
  · next s1 idxs term hw =>
    refine ⟨s1, idxs, term, hw, ?_⟩
    split at h
    · next hcond => exact Or.inr ⟨hcond.1, hcond.2, h⟩
    · next hcond =>
      simp only [Option.some_inj] at h
      exact Or.inl ⟨hcond, h.symm⟩

/-- Step facts of one insert: the dead set grows, edges persist unless their
source died, and the cap is unchanged. -/
theorem insertData_step (s : TreeState) (d : TestData) (s2 : TreeState)
    (h : insertData s d = some s2) :
    DeadMono s s2 ∧ EdgePersistOrDead s s2 ∧ s2.cap = s.cap := by
  rcases insertData_cases s d s2 h with ⟨s1, idxs, term, hw, hcase⟩
  rcases insertWalk_spec d d.buffer s 0 0 [] s1 idxs term hw with
    ⟨hd, hbs, hcap, hlen, hpres, hon, hleaf, _⟩
  have hck := capKill_frame s1 idxs d
  have hchK : ∀ n b, childLookup (capKill s1 idxs d) n b = childLookup s1 n b :=
    childLookup_congr s1 _ hck.1
  have hdmK : DeadMono s (capKill s1 idxs d) := by
    intro n hn
    exact hck.2.2.2.2 n (by rw [hd]; exact hn)
  rcases hcase with ⟨hcond, rfl⟩ | ⟨hst, hterm, hrd⟩
  · refine ⟨hdmK, ?_, by rw [hck.2.2.2.1, hcap]⟩
    intro n b m hh
    exact Or.inl (by rw [hchK]; exact hpres n b m hh)
  · have hsl := storeLeaf_frame (capKill s1 idxs d) term d
    rcases reverseDeaden_frame idxs.reverse _ s2 hrd with ⟨ht2, hf2, hm2, hb2, hc2, hdm2⟩
    have hchS2 : ∀ n b, childLookup s2 n b
        = childLookup (storeLeaf (capKill s1 idxs d) term d) n b :=
      childLookup_congr _ s2 ht2
    refine ⟨?_, ?_, ?_⟩
    · intro n hn
      exact hdm2 n (hsl.2.2.2.2.1 n (hdmK n hn))
    · intro n b m hh
      by_cases hnt : n = term
      · refine Or.inr (hdm2 n ?_)
        rw [hnt]
        exact hsl.2.2.2.2.2.1
      · refine Or.inl ?_
        rw [hchS2, (storeLeaf_child (capKill s1 idxs d) term d).2 n b hnt, hchK]
        exact hpres n b m hh
    · rw [hc2, hsl.2.2.2.1, hck.2.2.2.1, hcap]

theorem walk_old (s s1 : TreeState) (hon : EdgeOldOrNew s s1)
    (heb : ∀ n b m, childLookup s n b = some m → n < m ∧ m < s.tree.length)
    (bs : List Nat) :
    ∀ m, walkFrom s1 0 bs = some m → m < s.tree.length → walkFrom s 0 bs = some m := by
  induction bs using List.reverseRecOn with
  | nil => intro m h hm; exact h
  | append_singleton ys b ih =>
    intro m h hm
    rw [walkFrom_append] at h ⊢
    cases hy : walkFrom s1 0 ys with
    | none => rw [hy] at h; exact absurd h (by simp)
    | some u =>
      rw [hy] at h
      have h2 : childLookup s1 u b = some m := h
      rcases hon u b m h2 with hold | hnew
      · have hub := heb u b m hold
        have hu : walkFrom s 0 ys = some u := ih u hy (by omega)
        rw [hu]
        exact hold
      · omega

/-- Some prefix of `bs` (possibly all of it) walks to a dead node. -/
def Blocked (s : TreeState) (bs : List Nat) : Prop :=
  ∃ k n, k ≤ bs.length ∧ walkPath s (bs.take k) = some n ∧ n ∈ s.dead

/-- The walk along `bs` is fully defined, or some prefix is blocked. -/
def DefOrBlocked (s : TreeState) (bs : List Nat) : Prop :=
  (∃ n, walkPath s bs = some n) ∨ Blocked s bs

theorem Blocked_of_pfx (s : TreeState) (bs bs2 : List Nat) (hpre : bs <+: bs2)
    (h : Blocked s bs) : Blocked s bs2 := by
  rcases h with ⟨k, n, hk, hw, hd⟩
  rcases hpre with ⟨t, rfl⟩
  refine ⟨k, n, by simp; omega, ?_, hd⟩
  rw [List.take_append_of_le_length hk]
  exact hw

theorem walk_persist (s s2 : TreeState) (hp : EdgePersistOrDead s s2)
    (bs : List Nat) :
    ∀ m, walkPath s bs = some m → walkPath s2 bs = some m ∨ Blocked s2 bs := by
  induction bs using List.reverseRecOn with
  | nil => intro m h; exact Or.inl h
  | append_singleton ys b ih =>
    intro m h
    unfold walkPath at h ⊢
    rw [walkFrom_append] at h
    cases hy : walkFrom s 0 ys with
    | none => rw [hy] at h; exact absurd h (by simp)
    | some u =>
      rw [hy] at h
      have h2 : childLookup s u b = some m := h
      rcases ih u hy with hw2 | hb2
      · rcases hp u b m h2 with hold | hdead
        · left
          rw [walkFrom_append]
          unfold walkPath at hw2
          rw [hw2]
          exact hold
        · right
          refine ⟨ys.length, u, by simp, ?_, hdead⟩
          rw [show (ys ++ [b]).take ys.length = ys from List.take_left ys [b]]
          exact hw2
      · right
        exact Blocked_of_pfx s2 ys (ys ++ [b]) ⟨[b], rfl⟩ hb2

theorem DefOrBlocked_step (s s2 : TreeState) (hp : EdgePersistOrDead s s2)
    (hdm : DeadMono s s2) (bs : List Nat) (h : DefOrBlocked s bs) : DefOrBlocked s2 bs := by
  rcases h with ⟨n, hn⟩ | ⟨k, n, hk, hw, hd⟩
  · rcases walk_persist s s2 hp bs n hn with h2 | h2
    · exact Or.inl ⟨n, h2⟩
    · exact Or.inr h2
  · rcases walk_persist s s2 hp (bs.take k) n hw with h2 | h2
    · exact Or.inr ⟨k, n, hk, h2, hdm n hd⟩
    · refine Or.inr (Blocked_of_pfx s2 (bs.take k) bs
        ⟨bs.drop k, List.take_append_drop k bs⟩ h2)

theorem Blocked_step (s s2 : TreeState) (hp : EdgePersistOrDead s s2)
    (hdm : DeadMono s s2) (bs : List Nat) (h : Blocked s bs) : Blocked s2 bs := by
  rcases DefOrBlocked_step s s2 hp hdm bs (Or.inr h) with h2 | h2
  · rcases h with ⟨k, n, hk, hw, hd⟩
    rcases walk_persist s s2 hp (bs.take k) n hw with h3 | h3
    · exact ⟨k, n, hk, h3, hdm n hd⟩
    · exact Blocked_of_pfx s2 (bs.take k) bs ⟨bs.drop k, List.take_append_drop k bs⟩ h3
  · exact h2

/-- Invariants of every reachable tree state: the root exists, edges go from
lower to higher valid indices (so the graph is acyclic), every node has at
most one parent edge, a forced byte's child edge exists unless the node is
dead, and a leaf is dead, holds a non-OVERRUN result, and is reached only by
the exact buffer stored in it. -/
structure TreeInv (s : TreeState) : Prop where
  rootLen : 0 < s.tree.length
  edgeBound : ∀ n b m, childLookup s n b = some m → n < m ∧ m < s.tree.length
  parentUniq : ∀ n1 b1 n2 b2 m, childLookup s n1 b1 = some m →
    childLookup s n2 b2 = some m → n1 = n2 ∧ b1 = b2
  forcedChild : ∀ n c, alookup s.forced n = some c →
    n ∈ s.dead ∨ ∃ m, childLookup s n c = some m
  leafInv : ∀ (m : Nat) (dd : TestData), s.tree[m]? = some (TreeNode.leaf dd) →
    m ∈ s.dead ∧ dd.status ≠ Status.OVERRUN ∧
    ∀ xs, walkPath s xs = some m → xs = dd.buffer

/-- `TreeInv` survives any transformation that keeps the tree and the forced
table and only grows the dead set. -/
theorem TreeInv_deadGrow (s s2 : TreeState) (ht : s2.tree = s.tree)
    (hf : s2.forced = s.forced) (hdm : DeadMono s s2) (hinv : TreeInv s) : TreeInv s2 := by
  have hch : ∀ n b, childLookup s2 n b = childLookup s n b := childLookup_congr s s2 ht
  have hwk : ∀ bs n, walkFrom s2 n bs = walkFrom s n bs :=
    fun bs => walkFrom_congr s s2 ht bs
  refine ⟨by rw [ht]; exact hinv.rootLen, ?_, ?_, ?_, ?_⟩
  · intro n b m hh
    rw [hch] at hh
    rw [ht]
    exact hinv.edgeBound n b m hh
  · intro n1 b1 n2 b2 m h1 h2
    rw [hch] at h1 h2
    exact hinv.parentUniq _ _ _ _ _ h1 h2
  · intro n c hh
    rw [hf] at hh
    rcases hinv.forcedChild n c hh with h1 | ⟨m, hm⟩
    · exact Or.inl (hdm n h1)
    · exact Or.inr ⟨m, by rw [hch]; exact hm⟩
  · intro m dd hmd
    rw [ht] at hmd
    rcases hinv.leafInv m dd hmd with ⟨h1, h2, h3⟩
    refine ⟨hdm m h1, h2, ?_⟩
    intro xs hxs
    apply h3 xs
    unfold walkPath at hxs ⊢
    rw [hwk xs 0] at hxs
    exact hxs

/-- One insert preserves the tree invariants. -/
theorem insertData_inv (s : TreeState) (d : TestData) (s2 : TreeState)
    (hinv : TreeInv s) (h : insertData s d = some s2) : TreeInv s2 := by
  rcases insertData_cases s d s2 h with ⟨s1, idxs, term, hw, hcase⟩
  rcases insertWalk_spec d d.buffer s 0 0 [] s1 idxs term hw with
    ⟨hd, hbs, hcap, hlen, hpres, hon, hleaf, consumed, remaining, hsplit, hwalk, hterm⟩
  rcases insertWalk_inv d d.buffer s 0 0 [] s1 idxs term hw hinv.edgeBound hinv.parentUniq
      hinv.forcedChild hinv.rootLen with ⟨heb1, hpu1, hfc1, htermlt⟩
  have hinv1 : TreeInv s1 := by
    refine ⟨by omega, heb1, hpu1, hfc1, ?_⟩
    intro m dd hmd
    have hmd0 : s.tree[m]? = some (TreeNode.leaf dd) := (hleaf m dd).mp hmd
    rcases hinv.leafInv m dd hmd0 with ⟨hds, hst, hup⟩
    refine ⟨by rw [hd]; exact hds, hst, ?_⟩
    intro xs hxs
    have hmlt : m < s.tree.length := by
      rcases List.getElem?_eq_some.mp hmd0 with ⟨hh, _⟩
      exact hh
    exact hup xs (walk_old s s1 hon hinv.edgeBound xs m hxs hmlt)
  have hck := capKill_frame s1 idxs d
  have hinvK : TreeInv (capKill s1 idxs d) :=
    TreeInv_deadGrow s1 _ hck.1 hck.2.1 hck.2.2.2.2 hinv1
  rcases hcase with ⟨hcond, rfl⟩ | ⟨hst, htermK, hrd⟩
  · exact hinvK
  · -- the leaf-store branch followed by the reverse deadening
    have hKlen : (capKill s1 idxs d).tree.length = s1.tree.length := by rw [hck.1]
    have htermK2 : term < (capKill s1 idxs d).tree.length := by omega
    have hsl := storeLeaf_frame (capKill s1 idxs d) term d
    have hslc := storeLeaf_child (capKill s1 idxs d) term d
    have hsub : EdgePreserved (storeLeaf (capKill s1 idxs d) term d) (capKill s1 idxs d) := by
      intro n b m hh
      by_cases hnt : n = term
      · rw [hnt, hslc.1 b] at hh
        exact absurd hh (by simp)
      · rw [hslc.2 n b hnt] at hh
        exact hh
    have hrem : remaining = [] := by
      rcases hterm with h1 | h1
      · exact h1
      · exact absurd (hck.2.2.2.2 term h1) htermK
    have hcons : consumed = d.buffer := by
      rw [hsplit, hrem, List.append_nil]
    have hwalkK : walkFrom (capKill s1 idxs d) 0 d.buffer = some term := by
      rw [walkFrom_congr s1 _ hck.1]
      rw [← hcons]
      exact hwalk
    have hwalkL : walkFrom (storeLeaf (capKill s1 idxs d) term d) 0 d.buffer = some term :=
      storeLeaf_walk (capKill s1 idxs d) term d hinvK.edgeBound d.buffer term hwalkK
        (Nat.le_refl term)
    have hinvL : TreeInv (storeLeaf (capKill s1 idxs d) term d) := by
      refine ⟨?_, ?_, ?_, ?_, ?_⟩
      · rw [hsl.2.2.2.2.2.2]
        exact hinvK.rootLen
      · intro n b m hh
        rw [hsl.2.2.2.2.2.2]
        by_cases hnt : n = term
        · rw [hnt, hslc.1 b] at hh
          exact absurd hh (by simp)
        · rw [hslc.2 n b hnt] at hh
          exact hinvK.edgeBound n b m hh
      · intro n1 b1 n2 b2 m h1 h2
        exact hinvK.parentUniq n1 b1 n2 b2 m (hsub n1 b1 m h1) (hsub n2 b2 m h2)
      · intro n c hh
        have hh2 : alookup (capKill s1 idxs d).forced n = some c := hh
        rcases hinvK.forcedChild n c hh2 with h1 | ⟨m, hm⟩
        · exact Or.inl (hsl.2.2.2.2.1 n h1)
        · by_cases hnt : n = term
          · exact Or.inl (by rw [hnt]; exact hsl.2.2.2.2.2.1)
          · exact Or.inr ⟨m, by rw [hslc.2 n c hnt]; exact hm⟩
      · intro m dd hmd
        by_cases hmt : m = term
        · rw [hmt, storeLeaf_tree_get _ term d htermK2] at hmd
          have hdd : dd = d := (TreeNode.leaf.inj (Option.some_inj.mp hmd)).symm
          rw [hmt, hdd]
          refine ⟨hsl.2.2.2.2.2.1, hst, ?_⟩
          intro xs hxs
          refine walkPath_unique (storeLeaf (capKill s1 idxs d) term d) ?_ ?_
            xs d.buffer term hxs hwalkL
          · intro n b m2 hh
            rw [hsl.2.2.2.2.2.2]
            by_cases hnt : n = term
            · rw [hnt, hslc.1 b] at hh
              exact absurd hh (by simp)
            · rw [hslc.2 n b hnt] at hh
              exact hinvK.edgeBound n b m2 hh
          · exact fun n1 b1 n2 b2 m2 h1 h2 =>
              hinvK.parentUniq n1 b1 n2 b2 m2 (hsub n1 b1 m2 h1) (hsub n2 b2 m2 h2)
        · rw [storeLeaf_tree_get_ne _ term d m hmt] at hmd
          rcases hinvK.leafInv m dd hmd with ⟨h1, h2, h3⟩
          refine ⟨hsl.2.2.2.2.1 m h1, h2, ?_⟩
          intro xs hxs
          exact h3 xs (walkFrom_mono _ _ hsub xs 0 m hxs)
    rcases reverseDeaden_frame idxs.reverse _ s2 hrd with ⟨ht2, hf2, hm2, hb2, hc2, hdm2⟩
    exact TreeInv_deadGrow _ s2 ht2 hf2 hdm2 hinvL

theorem EdgePersistOrDead_trans (s1 s2 s3 : TreeState)
    (h12 : EdgePersistOrDead s1 s2) (h23 : EdgePersistOrDead s2 s3)
    (hdm : DeadMono s2 s3) : EdgePersistOrDead s1 s3 := by
  intro n b m hh
  rcases h12 n b m hh with h2 | h2
  · exact h23 n b m h2
  · exact Or.inr (hdm n h2)

/-- After a successful insert, every initial segment of the inserted buffer
either walks to a node of the new tree or hits a dead node on the way, and a
non-OVERRUN insert leaves its whole buffer blocked by a dead node. -/
theorem insertData_covers (s : TreeState) (d : TestData) (s2 : TreeState)
    (hinv : TreeInv s) (h : insertData s d = some s2) :
    (∀ k, DefOrBlocked s2 (d.buffer.take k))
    ∧ (d.status ≠ Status.OVERRUN → Blocked s2 d.buffer) := by
  rcases insertData_cases s d s2 h with ⟨s1, idxs, term, hw, hcase⟩
  rcases insertWalk_spec d d.buffer s 0 0 [] s1 idxs term hw with
    ⟨hd, hbs, hcap, hlen, hpres, hon, hleaf, consumed, remaining, hsplit, hwalk, hterm⟩
  have hck := capKill_frame s1 idxs d
  have hchK : ∀ n b, childLookup (capKill s1 idxs d) n b = childLookup s1 n b :=
    childLookup_congr s1 _ hck.1
  have hwkK : ∀ bs n, walkFrom (capKill s1 idxs d) n bs = walkFrom s1 n bs :=
    fun bs => walkFrom_congr s1 _ hck.1 bs
  have hcov1 : ∀ k, DefOrBlocked s1 (d.buffer.take k) := by
    intro k
    by_cases hkc : k ≤ consumed.length
    · rcases walkFrom_take s1 consumed 0 term hwalk k with ⟨u, hu⟩
      refine Or.inl ⟨u, ?_⟩
      show walkFrom s1 0 (d.buffer.take k) = some u
      rw [hsplit, List.take_append_of_le_length hkc]
      exact hu
    · rcases hterm with hrem | hdead
      · refine Or.inl ⟨term, ?_⟩
        show walkFrom s1 0 (d.buffer.take k) = some term
        rw [hsplit, hrem, List.append_nil,
          List.take_of_length_le (Nat.le_of_not_le hkc)]
        exact hwalk
      · refine Or.inr (Blocked_of_pfx s1 consumed (d.buffer.take k) ?_ ?_)
        · refine ⟨remaining.take (k - consumed.length), ?_⟩
          rw [hsplit, List.take_append_eq_append_take,
            List.take_of_length_le (Nat.le_of_not_le hkc)]
        · refine ⟨consumed.length, term, Nat.le_refl _, ?_, hdead⟩
          show walkFrom s1 0 (consumed.take consumed.length) = some term
          rw [List.take_length]
          exact hwalk
  have hp1 : EdgePersistOrDead s1 (capKill s1 idxs d) := by
    intro n b m hh
    exact Or.inl (by rw [hchK]; exact hh)
  have hdm1 : DeadMono s1 (capKill s1 idxs d) := hck.2.2.2.2
  rcases hcase with ⟨hcond, rfl⟩ | ⟨hst, hlive, hrd⟩
  · refine ⟨fun k => DefOrBlocked_step s1 _ hp1 hdm1 _ (hcov1 k), ?_⟩
    intro hstat
    have htd : term ∈ (capKill s1 idxs d).dead := by
      by_contra hnot
      exact hcond ⟨hstat, hnot⟩
    refine Blocked_of_pfx _ consumed d.buffer ⟨remaining, hsplit.symm⟩
      ⟨consumed.length, term, Nat.le_refl _, ?_, htd⟩
    show walkFrom (capKill s1 idxs d) 0 (consumed.take consumed.length) = some term
    rw [List.take_length, hwkK consumed 0]
    exact hwalk
  · have hsl := storeLeaf_frame (capKill s1 idxs d) term d
    rcases reverseDeaden_frame idxs.reverse _ s2 hrd with ⟨ht2, hf2, hm2, hb2, hc2, hdm3⟩
    have hp2 : EdgePersistOrDead (capKill s1 idxs d)
        (storeLeaf (capKill s1 idxs d) term d) := by
      intro n b m hh
      by_cases hnt : n = term
      · exact Or.inr (by rw [hnt]; exact hsl.2.2.2.2.2.1)
      · exact Or.inl (by
          rw [(storeLeaf_child (capKill s1 idxs d) term d).2 n b hnt]; exact hh)
    have hdm2 : DeadMono (capKill s1 idxs d) (storeLeaf (capKill s1 idxs d) term d) :=
      hsl.2.2.2.2.1
    have hp3 : EdgePersistOrDead (storeLeaf (capKill s1 idxs d) term d) s2 := by
      intro n b m hh
      exact Or.inl (by rw [childLookup_congr _ s2 ht2]; exact hh)
    have hps : EdgePersistOrDead s1 s2 :=
      EdgePersistOrDead_trans _ _ _ (EdgePersistOrDead_trans _ _ _ hp1 hp2 hdm2) hp3 hdm3
    have hdms : DeadMono s1 s2 := fun n hn => hdm3 n (hdm2 n (hdm1 n hn))
    have hiw := insertWalk_inv d d.buffer s 0 0 [] s1 idxs term hw
      hinv.edgeBound hinv.parentUniq hinv.forcedChild hinv.rootLen
    have hebK : ∀ n b m, childLookup (capKill s1 idxs d) n b = some m →
        n < m ∧ m < (capKill s1 idxs d).tree.length := by
      intro n b m hh
      rw [hchK] at hh
      rw [hck.1]
      exact hiw.1 n b m hh
    have hwK : walkFrom (capKill s1 idxs d) 0 consumed = some term := by
      rw [hwkK]
      exact hwalk
    have hwsl := storeLeaf_walk (capKill s1 idxs d) term d hebK consumed term hwK
      (Nat.le_refl _)
    have hwS2 : walkFrom s2 0 consumed = some term := by
      rw [walkFrom_congr _ s2 ht2 consumed 0]
      exact hwsl
    refine ⟨fun k => DefOrBlocked_step s1 s2 hps hdms _ (hcov1 k), fun _ => ?_⟩
    refine Blocked_of_pfx s2 consumed d.buffer ⟨remaining, hsplit.symm⟩
      ⟨consumed.length, term, Nat.le_refl _, ?_, hdm3 term hsl.2.2.2.2.2.1⟩
    show walkFrom s2 0 (consumed.take consumed.length) = some term
    rw [List.take_length]
    exact hwS2

theorem insertAll_step (ds : List TestData) :
    ∀ s s2, insertAll s ds = some s2 →
    DeadMono s s2 ∧ EdgePersistOrDead s s2 := by
  induction ds with
  | nil =>
    intro s s2 h
    simp only [insertAll, Option.some_inj] at h
    subst h
    exact ⟨fun n hn => hn, fun n b m hh => Or.inl hh⟩
  | cons d ds ih =>
    intro s s2 h
    simp only [insertAll] at h
    cases hi : insertData s d with
    | none => rw [hi] at h; exact absurd h (by simp)
    | some s1 =>
      rw [hi] at h
      rcases insertData_step s d s1 hi with ⟨hdmA, hpA, _⟩
      rcases ih s1 s2 h with ⟨hdmB, hpB⟩
      exact ⟨fun n hn => hdmB n (hdmA n hn),
        EdgePersistOrDead_trans _ _ _ hpA hpB hdmB⟩

/-- Inserting a list of results preserves the tree invariants and covers
every inserted buffer: each initial segment walks or is blocked, and
non-OVERRUN buffers are blocked outright. -/
theorem insertAll_covers (ds : List TestData) :
    ∀ s s2, TreeInv s → insertAll s ds = some s2 →
    TreeInv s2 ∧ ∀ d ∈ ds,
      (∀ k, DefOrBlocked s2 (d.buffer.take k))
      ∧ (d.status ≠ Status.OVERRUN → Blocked s2 d.buffer) := by
  induction ds with
  | nil =>
    intro s s2 hinv h
    simp only [insertAll, Option.some_inj] at h
    subst h
    exact ⟨hinv, by simp⟩
  | cons d ds ih =>
    intro s s2 hinv h
    simp only [insertAll] at h
    cases hi : insertData s d with
    | none => rw [hi] at h; exact absurd h (by simp)
    | some s1 =>
      rw [hi] at h
      have hinv1 : TreeInv s1 := insertData_inv s d s1 hinv hi
      rcases ih s1 s2 hinv1 h with ⟨hinv2, hcov⟩
      have hcov0 := insertData_covers s d s1 hinv hi
      have hsteps : DeadMono s1 s2 ∧ EdgePersistOrDead s1 s2 := insertAll_step ds s1 s2 h
      refine ⟨hinv2, ?_⟩
      intro e he
      rcases List.mem_cons.mp he with rfl | he2
      · exact ⟨fun k => DefOrBlocked_step s1 s2 hsteps.2 hsteps.1 _ (hcov0.1 k),
          fun hst => Blocked_step s1 s2 hsteps.2 hsteps.1 _ (hcov0.2 hst)⟩
      · exact hcov e he2

theorem childLookup_branch (s : TreeState) (node : Nat) (ch : List (Nat × Nat))
    (heq : s.tree[node]? = some (TreeNode.branch ch)) (b : Nat) :
    childLookup s node b = alookup ch b := by
  unfold childLookup
  rw [heq]

/-- Any step `generate_novel_prefix`'s random probe produces either finishes
with one more byte whose child is missing, or descends along an existing
child edge with one more byte. -/
theorem gnpProbe_spec (s : TreeState) (rand pfx : List Nat) (ub : Nat)
    (ch : List (Nat × Nat)) (g : GnpStep) (h : gnpProbe s rand pfx ub ch = some g) :
    (∃ c, g = GnpStep.done (pfx ++ [c]) ∧ alookup ch c = none)
    ∨ (∃ c n2 r2, g = GnpStep.descend n2 (pfx ++ [c]) r2 ∧ alookup ch c = some n2) := by
  cases rand with
  | nil => exact absurd h (by simp [gnpProbe])
  | cons v rand2 =>
    simp only [gnpProbe] at h
    split at h
    · next hal =>
      left
      exact ⟨v % ub, (Option.some_inj.mp h).symm, hal⟩
    · next nxt hal =>
      split at h
      · next hdead =>
        split at h
        · exact absurd h (by simp)
        · next a t hfil =>
          split at h
          · exact absurd h (by simp)
          · next w rand3 =>
            split at h
            · next hal2 =>
              left
              exact ⟨_, (Option.some_inj.mp h).symm, hal2⟩
            · next m2 hal2 =>
              right
              exact ⟨_, m2, rand3, (Option.some_inj.mp h).symm, hal2⟩
      · next hdead =>
        right
        exact ⟨v % ub, nxt, rand2, (Option.some_inj.mp h).symm, hal⟩

/-- A successful `generate_novel_prefix` run from a node reached by `pfx`
along live nodes produces a strict extension of `pfx` all of whose proper
initial segments walk to live nodes, and which itself walks off the tree. -/
theorem gnpAux_spec (s : TreeState) (hinv : TreeInv s) (fuel : Nat) :
    ∀ rand node pfx p,
    gnpAux s fuel rand node pfx = some p →
    walkPath s pfx = some node →
    (∀ k, k < pfx.length → ∃ m, walkPath s (pfx.take k) = some m ∧ m ∉ s.dead) →
    pfx.length < p.length
    ∧ (∀ k, k < p.length → ∃ m, walkPath s (p.take k) = some m ∧ m ∉ s.dead)
    ∧ walkPath s p = none := by
  induction fuel with
  | zero =>
    intro rand node pfx p h _ _
    exact absurd h (by simp [gnpAux])
  | succ fuel ih =>
    intro rand node pfx p h hnode hlive
    simp only [gnpAux] at h
    split at h
    · exact absurd h (by simp)
    · next hcap =>
      split at h
      · exact absurd h (by simp)
      · next hnd =>
        split at h
        · exact absurd h (by simp)
        · next hmask =>
          split at h
          · next ch heq =>
            have hnode' : walkFrom s 0 pfx = some node := hnode
            have hlive2 : ∀ c, ∀ k, k < (pfx ++ [c]).length →
                ∃ m, walkPath s ((pfx ++ [c]).take k) = some m ∧ m ∉ s.dead := by
              intro c k hk
              simp only [List.length_append, List.length_cons, List.length_nil] at hk
              by_cases hkl : k < pfx.length
              · rcases hlive k hkl with ⟨m, hm, hmd⟩
                refine ⟨m, ?_, hmd⟩
                rw [List.take_append_of_le_length (Nat.le_of_lt hkl)]
                exact hm
              · have hke : k = pfx.length := by omega
                refine ⟨node, ?_, hnd⟩
                rw [hke, List.take_left]
                exact hnode
            have hwext : ∀ c nxt, alookup ch c = some nxt →
                walkPath s (pfx ++ [c]) = some nxt := by
              intro c nxt hc
              show walkFrom s 0 (pfx ++ [c]) = some nxt
              rw [walkFrom_append, hnode']
              show childLookup s node c = some nxt
              rw [childLookup_branch s node ch heq c]
              exact hc
            have hwnone : ∀ c, alookup ch c = none →
                walkPath s (pfx ++ [c]) = none := by
              intro c hc
              show walkFrom s 0 (pfx ++ [c]) = none
              rw [walkFrom_append, hnode']
              show childLookup s node c = none
              rw [childLookup_branch s node ch heq c]
              exact hc
            split at h
            · next c hforced =>
              split at h
              · next nxt hc =>
                rcases ih rand nxt (pfx ++ [c]) p h (hwext c nxt hc) (hlive2 c) with
                  ⟨h1, h2, h3⟩
                refine ⟨?_, h2, h3⟩
                simp only [List.length_append, List.length_cons, List.length_nil] at h1
                omega
              · next hc =>
                exfalso
                rcases hinv.forcedChild node c hforced with hdead | ⟨m, hm⟩
                · exact hnd hdead
                · rw [childLookup_branch s node ch heq c, hc] at hm
                  exact absurd hm (by simp)
            · next hforced =>
              split at h
              · next p' hprobe =>
                have hpp : p' = p := Option.some_inj.mp h
                subst hpp
                rcases gnpProbe_spec s rand pfx _ ch _ hprobe with
                  ⟨c, hg, hc⟩ | ⟨c, n2, r2, hg, hc⟩
                · have hpc : p' = pfx ++ [c] := GnpStep.done.inj hg
                  subst hpc
                  exact ⟨by simp, hlive2 c, hwnone c hc⟩
                · exact absurd hg (by simp)
              · next n2 p2 r2 hprobe =>
                rcases gnpProbe_spec s rand pfx _ ch _ hprobe with
                  ⟨c, hg, hc⟩ | ⟨c, m2, r3, hg, hc⟩
                · exact absurd hg (by simp)
                · obtain ⟨hn2, hp2, hr2⟩ := GnpStep.descend.inj hg
                  rw [hn2, hp2, hr2] at h
                  rcases ih r3 m2 (pfx ++ [c]) p h (hwext c m2 hc) (hlive2 c) with
                    ⟨h1, h2, h3⟩
                  refine ⟨?_, h2, h3⟩
                  simp only [List.length_append, List.length_cons, List.length_nil] at h1
                  omega
              · exact absurd h (by simp)
          · exact absurd h (by simp)

/-- The fresh tree satisfies the invariants. -/
theorem TreeInv_init (cap : Nat) : TreeInv (initTree cap) := by
  refine ⟨by simp [initTree], ?_, ?_, ?_, ?_⟩
  · intro n b m hh
    rcases n with _ | n <;> simp [initTree, childLookup, alookup] at hh
  · intro n1 b1 n2 b2 m h1 h2
    rcases n1 with _ | n1 <;> simp [initTree, childLookup, alookup] at h1
  · intro n c hh
    simp [initTree, alookup] at hh
  · intro m dd hmd
    rcases m with _ | m <;> simp [initTree] at hmd

/-- Claim C1 (amended): for every tree state reached by inserting a list of
results into a fresh tree, a successful `generate_novel_prefix` returns a
byte sequence whose final byte leads to a child absent from the tree (its
walk leaves the tree), which is not a prefix of any inserted buffer, and
which no inserted buffer of non-OVERRUN status properly precedes as a
prefix. -/
theorem c1_generate_novel (cap : Nat) (ds : List TestData) (s : TreeState)
    (rand : List Nat) (fuel : Nat) (p : List Nat)
    (hins : insertList cap ds = some s)
    (hgen : generateNovel s rand fuel = some p) :
    walkPath s p = none
    ∧ (∀ d ∈ ds, ¬ p <+: d.buffer)
    ∧ (∀ d ∈ ds, d.status ≠ Status.OVERRUN →
        ¬ (d.buffer <+: p ∧ d.buffer.length < p.length)) := by
  rcases insertAll_covers ds (initTree cap) s (TreeInv_init cap) hins with ⟨hinv, hcov⟩
  have hroot : walkPath s ([] : List Nat) = some 0 := rfl
  have hvac : ∀ k, k < ([] : List Nat).length →
      ∃ m, walkPath s (([] : List Nat).take k) = some m ∧ m ∉ s.dead := by
    intro k hk
    simp at hk
  rcases gnpAux_spec s hinv fuel rand 0 [] p hgen hroot hvac with ⟨hlen, hlivep, hnone⟩
  refine ⟨hnone, ?_, ?_⟩
  · rintro d hd ⟨t, ht⟩
    have hp : d.buffer.take p.length = p := by
      rw [← ht, List.take_left]
    rcases (hcov d hd).1 p.length with ⟨n, hn⟩ | ⟨j, n, hj, hw, hdn⟩
    · rw [hp, hnone] at hn
      exact absurd hn (by simp)
    · rw [hp] at hj hw
      by_cases hjl : j < p.length
      · rcases hlivep j hjl with ⟨m, hm, hmd⟩
        rw [hw] at hm
        exact hmd ((Option.some_inj.mp hm) ▸ hdn)
      · have hje : j = p.length := by omega
        rw [hje, List.take_length, hnone] at hw
        exact absurd hw (by simp)
  · rintro d hd hst ⟨⟨t, ht⟩, hlt⟩
    rcases (hcov d hd).2 hst with ⟨j, n, hj, hw, hdn⟩
    have hbt : d.buffer.take j = p.take j := by
      rw [← ht, List.take_append_of_le_length hj]
    rw [hbt] at hw
    have hjp : j < p.length := by omega
    rcases hlivep j hjp with ⟨m, hm, hmd⟩
    rw [hw] at hm
    exact hmd ((Option.some_inj.mp hm) ▸ hdn)

/-- An OVERRUN result inserted into the tree: its terminal node stays live,
so the original C1 prefix-freedom clause fails on it. -/
def dOvC1 : TestData := ⟨[5], Status.OVERRUN, [], [], [], [], 0⟩

/-- The tree after inserting only `dOvC1` into a fresh tree with cap 4. -/
def sC1 : TreeState := (insertList 4 [dOvC1]).getD (initTree 4)

/-- The original C1 is false: after inserting the OVERRUN buffer `[5]`,
`generate_novel_prefix` can return `[5, 0]`, which the inserted buffer `[5]`
properly precedes as a prefix. -/
theorem c1_counterexample :
    insertList 4 [dOvC1] = some sC1
    ∧ generateNovel sC1 [5, 0] 2 = some [5, 0]
    ∧ dOvC1.buffer <+: [5, 0]
    ∧ dOvC1.buffer.length < ([5, 0] : List Nat).length := by
  refine ⟨by decide, by decide, ⟨[0], by decide⟩, by decide⟩

/-- Claim C1 at a concrete input: the empty insertion list with cap 4 and
oracle `[0]` produces the novel byte sequence `[0]`. -/
theorem c1_generate_novel_witness :
    walkPath (initTree 4) [0] = none
    ∧ (∀ d ∈ ([] : List TestData), ¬ [0] <+: d.buffer)
    ∧ (∀ d ∈ ([] : List TestData), d.status ≠ Status.OVERRUN →
        ¬ (d.buffer <+: [0] ∧ d.buffer.length < ([0] : List Nat).length)) :=
  c1_generate_novel 4 [] (initTree 4) [0] 1 [0] (by decide) (by decide)

/-- A cache hit reaches a stored leaf after traversing the substituted form
of some initial segment of the buffer. -/
theorem cachedWalk_substWalk (s : TreeState) (b : List Nat) :
    ∀ node d, cachedWalk s node b = some d →
    ∃ k cs m, k ≤ b.length ∧ substWalk s node (b.take k) = some (cs, m)
      ∧ s.tree[m]? = some (TreeNode.leaf d) := by
  induction b with
  | nil =>
    intro node d h
    exact absurd h (by simp [cachedWalk])
  | cons c rest ih =>
    intro node d h
    simp only [cachedWalk] at h
    split at h
    · next ch heq =>
      split at h
      · exact absurd h (by simp)
      · next nxt hal =>
        split at h
        · next dd hleaf =>
          have hdd : dd = d := Option.some_inj.mp h
          subst hdd
          refine ⟨1, [substByte s node c], nxt, by simp, ?_, hleaf⟩
          show substWalk s node (List.take 1 (c :: rest)) = _
          simp only [List.take_succ_cons, List.take_zero]
          simp only [substWalk, heq, hal]
        · next hnl =>
          rcases ih nxt d h with ⟨k, cs, m, hk, hsw, hleaf⟩
          refine ⟨k + 1, substByte s node c :: cs, m,
            by simp only [List.length_cons]; omega, ?_, hleaf⟩
          show substWalk s node (List.take (k + 1) (c :: rest)) = _
          simp only [List.take_succ_cons]
          simp only [substWalk, heq, hal, hsw]
    · exact absurd h (by simp)

/-- The substituted byte sequence followed by the cache lookup is a raw walk
of the tree. -/
theorem substWalk_walkFrom (s : TreeState) (bs : List Nat) :
    ∀ node cs m, substWalk s node bs = some (cs, m) → walkFrom s node cs = some m := by
  induction bs with
  | nil =>
    intro node cs m h
    simp only [substWalk, Option.some_inj, Prod.mk.injEq] at h
    obtain ⟨rfl, rfl⟩ := h
    rfl
  | cons c rest ih =>
    intro node cs m h
    simp only [substWalk] at h
    split at h
    · next ch heq =>
      split at h
      · exact absurd h (by simp)
      · next nxt hal =>
        split at h
        · next cs2 m2 hsw =>
          simp only [Option.some_inj, Prod.mk.injEq] at h
          obtain ⟨h1, h2⟩ := h
          have hcl : childLookup s node (substByte s node c) = some nxt := by
            rw [childLookup_branch s node ch heq]
            exact hal
          rw [← h1, ← h2]
          show walkFrom s node (substByte s node c :: cs2) = some m2
          simp only [walkFrom, hcl]
          exact ih nxt cs2 m2 hsw
        · exact absurd h (by simp)
    · exact absurd h (by simp)

/-- Claim C2 (amended): when `cached_test_function` returns a stored leaf
`d` for a buffer `b` on a tree reached by insertions, `d.status` is not
OVERRUN and `d.buffer` equals the substituted (forced/masked) form of the
initial segment of `b` that the lookup traversed — not in general a literal
initial segment of `b`. -/
theorem c2_cached_leaf_amended (cap : Nat) (ds : List TestData) (s : TreeState)
    (b : List Nat) (d : TestData)
    (hins : insertList cap ds = some s)
    (hc : cachedWalk s 0 b = some d) :
    d.status ≠ Status.OVERRUN
    ∧ ∃ k m, k ≤ b.length ∧ substWalk s 0 (b.take k) = some (d.buffer, m)
        ∧ s.tree[m]? = some (TreeNode.leaf d) := by
  rcases insertAll_covers ds (initTree cap) s (TreeInv_init cap) hins with ⟨hinv, _⟩
  rcases cachedWalk_substWalk s b 0 d hc with ⟨k, cs, m, hk, hsw, hleaf⟩
  have hwp : walkPath s cs = some m := substWalk_walkFrom s (b.take k) 0 cs m hsw
  rcases hinv.leafInv m d hleaf with ⟨hiD, hst, huniq⟩
  have hcs : cs = d.buffer := huniq cs hwp
  exact ⟨hst, k, m, hk, hcs ▸ hsw, hleaf⟩

/-- A result with a forced byte at position 0: the tree records
`forced[0] = 5`, so later cache lookups substitute 5 for the first byte. -/
def dC2 : TestData := ⟨[5], Status.VALID, [0], [], [], [], 0⟩

/-- The tree after inserting only `dC2` into a fresh tree with cap 4096. -/
def sC2 : TreeState := (insertList 4096 [dC2]).getD (initTree 4096)

/-- The original C2 is false: after inserting `dC2` (buffer `[5]`, position
0 forced), the cache lookup for `[7]` substitutes the forced byte and
returns the stored leaf although `[5]` is not a prefix of `[7]`. -/
theorem c2_counterexample :
    insertList 4096 [dC2] = some sC2
    ∧ cachedWalk sC2 0 [7] = some dC2
    ∧ ¬ dC2.buffer <+: [7] := by
  refine ⟨by decide, by decide, ?_⟩
  rintro ⟨t, ht⟩
  simp [dC2] at ht

/-- Claim C2 at a concrete input: looking `[5]` up after inserting `dC2`
returns the leaf, whose buffer is the substituted traversed segment. -/
theorem c2_cached_leaf_amended_witness :
    dC2.status ≠ Status.OVERRUN
    ∧ ∃ k m, k ≤ ([5] : List Nat).length
        ∧ substWalk sC2 0 (([5] : List Nat).take k) = some (dC2.buffer, m)
        ∧ sC2.tree[m]? = some (TreeNode.leaf dC2) :=
  c2_cached_leaf_amended 4096 [dC2] sC2 [5] dC2 (by decide) (by decide)

/-- A cache hit is always prescreened away: the lookup and the prescreen
make identical substitutions and descents, and stored leaves are dead. -/
theorem cachedWalk_prescreen (s : TreeState) (hinv : TreeInv s) (b : List Nat) :
    ∀ node d, cachedWalk s node b = some d → prescreenWalk s node b = false := by
  induction b with
  | nil =>
    intro node d h
    exact absurd h (by simp [cachedWalk])
  | cons c rest ih =>
    intro node d h
    simp only [cachedWalk] at h
    split at h
    · next ch heq =>
      split at h
      · exact absurd h (by simp)
      · next nxt hal =>
        simp only [prescreenWalk]
        by_cases hdead : node ∈ s.dead
        · simp [hdead]
        · rw [if_neg hdead]
          by_cases hblk : (match alookup s.blockSizes node with
              | some bs => decide (rest.length + 1 < bs)
              | none => false) = true
          · rw [if_pos hblk]
          · rw [if_neg hblk]
            simp only [heq, hal]
            split at h
            · next dd hleaf =>
              cases rest with
              | nil => simp [prescreenWalk]
              | cons c2 r2 =>
                have hnd : nxt ∈ s.dead := (hinv.leafInv nxt dd hleaf).1
                simp [prescreenWalk, hnd]
            · next hnl =>
              exact ih nxt d h
    · exact absurd h (by simp)

/-- Claim C3 (corrected direction): on every tree reached by insertions, if
`cached_test_function(b)` takes the cache-hit path (so the user test
function is not invoked), then `prescreen_buffer(b)` is `false`. The
original implication is false: `prescreen_buffer` can return `false` for a
known overrun while `cached_test_function` still runs the test. -/
theorem c3_cached_implies_prescreen (cap : Nat) (ds : List TestData) (s : TreeState)
    (b : List Nat) (d : TestData)
    (hins : insertList cap ds = some s)
    (hc : cachedWalk s 0 b = some d) :
    prescreen_buffer s b = false := by
  rcases insertAll_covers ds (initTree cap) s (TreeInv_init cap) hins with ⟨hinv, _⟩
  exact cachedWalk_prescreen s hinv b 0 d hc

/-- A valid two-byte result whose path stays live beyond its first byte. -/
def dC3 : TestData := ⟨[0, 0], Status.VALID, [], [], [], [], 0⟩

/-- The tree after inserting only `dC3` into a fresh tree with cap 4096. -/
def sC3 : TreeState := (insertList 4096 [dC3]).getD (initTree 4096)

/-- The original C3 is false: after inserting `dC3`, the one-byte buffer
`[0]` is prescreened `false` (replaying it is a known overrun), yet the
cache lookup misses (`none`), so `cached_test_function` invokes the user
test function anyway. -/
theorem c3_counterexample :
    insertList 4096 [dC3] = some sC3
    ∧ prescreen_buffer sC3 [0] = false
    ∧ cachedWalk sC3 0 [0] = none := by
  exact ⟨by decide, by decide, by decide⟩

/-- Claim C3 at a concrete input: `[0, 0]` hits the stored leaf after
inserting `dC3`, and its prescreen is `false`. -/
theorem c3_cached_implies_prescreen_witness :
    prescreen_buffer sC3 [0, 0] = false :=
  c3_cached_implies_prescreen 4096 [dC3] sC3 [0, 0] dC3 (by decide) (by decide)

/-- `MAX_SHRINKS` (line 54). -/
def MAX_SHRINKS : Nat := 500

/-- `CACHE_RESET_FREQUENCY` (line 56). -/
def CACHE_RESET_FREQUENCY : Nat := 1000

/-- The settings the driver's budget code reads: `max_examples`,
`buffer_size`, and the deprecated `timeout` in abstract time units
(`timeout > 0` enables the timeout check). -/
structure EngineConfig where
  maxExamples : Nat
  bufferSize : Nat
  timeout : Nat
deriving DecidableEq

/-- `HealthCheckState`'s counters (lines 61-66). Draw times are not
modelled — every draw is treated as instantaneous, so the slow-generation
branch of the health check never fires. -/
structure HealthState where
  validExamples : Nat
  invalidExamples : Nat
  overrunExamples : Nat
deriving DecidableEq

/-- The runner state the driver's bookkeeping touches: the prefix tree, the
call and valid-example counters, the shrink counter, the interesting
examples keyed by origin, the shrunk-origin set, the target selector and
the health-check state (`none` once disabled). -/
structure EngineState where
  ts : TreeState
  callCount : Nat
  validExamples : Nat
  shrinks : Nat
  interesting : List (Nat × TestData)
  shrunk : List Nat
  selector : SelectorState
  health : Option HealthState
deriving DecidableEq

/-- Strict `sort_key` comparison, `sort_key(a) < sort_key(b)`: the shrinker
module's `sort_key(b)` is the pair `(len(b), b)`, so the strict order is
shortlex. -/
def sortKeyLt (a b : List Nat) : Bool :=
  if a.length < b.length then true
  else if a.length = b.length then lexLe a b && !(a == b)
  else false

/-- Lines 315-331: record an INTERESTING result under its origin key; a
strictly smaller buffer for a known origin counts one shrink; on any change
the origin leaves the shrunk set. Other statuses change nothing. -/
def interestingUpdate (es : EngineState) (d : TestData) : EngineState :=
  if d.status = Status.INTERESTING then
    match alookup es.interesting d.interestingOrigin with
    | none =>
      { es with interesting := aset es.interesting d.interestingOrigin d, shrunk := es.shrunk.filter (fun k => k ≠ d.interestingOrigin) }
    | some existing =>
      if sortKeyLt d.buffer existing.buffer then
        { es with shrinks := es.shrinks + 1, interesting := aset es.interesting d.interestingOrigin d, shrunk := es.shrunk.filter (fun k => k ≠ d.interestingOrigin) }
      else es
  else es

/-- The exit decision at the end of `test_function` (lines 333-368, in
source order): `max_shrinks` for an INTERESTING result once `MAX_SHRINKS`
shrinks were counted, then `timeout` when enabled and expired, then — only
with no interesting example recorded — `max_examples` and `max_iterations`,
then `finished` when the tree root is dead; `none` when the run continues. -/
def exitChecks (cfg : EngineConfig) (timedOut : Bool) (es : EngineState)
    (d : TestData) : Option ExitReason :=
  if d.status = Status.INTERESTING ∧ MAX_SHRINKS ≤ es.shrinks then
    some ExitReason.max_shrinks
  else if 0 < cfg.timeout ∧ timedOut = true then some ExitReason.timeout
  else if es.interesting.isEmpty ∧ cfg.maxExamples ≤ es.validExamples then
    some ExitReason.max_examples
  else if es.interesting.isEmpty ∧ max (cfg.maxExamples * 10) 1000 ≤ es.callCount then
    some ExitReason.max_iterations
  else if 0 ∈ es.ts.dead then some ExitReason.finished
  else none

/-- `record_for_health_check` (lines 438-519) without draw times: an
INTERESTING result disables the health state; otherwise the counter of the
result's status is bumped, ten valid examples disable the state, and twenty
overruns or fifty invalid examples fail the health check (the abnormal end,
modelled as `none`). -/
def healthUpdate (es : EngineState) (d : TestData) : Option (Option HealthState) :=
  if d.status = Status.INTERESTING then some none
  else
    match es.health with
    | none => some none
    | some st =>
      let st2 := match d.status with
        | Status.VALID => { st with validExamples := st.validExamples + 1 }
        | Status.INVALID => { st with invalidExamples := st.invalidExamples + 1 }
        | _ => { st with overrunExamples := st.overrunExamples + 1 }
      if st2.validExamples = 10 then some none
      else if st2.overrunExamples = 20 then none
      else if st2.invalidExamples = 50 then none
      else some (some st2)

/-- `test_function` (lines 158-370) around the user test call, whose frozen
result is `d`: bump the call counter, feed the target selector (`rsel`
drives its eviction), count a valid example, reset the tree at the cache
reset frequency while nothing interesting is stored, record the result in
the tree, do the interesting bookkeeping, take the first firing exit
(`exit_with` raises, so the state after it is what the exit saw), and
update the health state only when no exit fired. `none` models the
non-`exit_with` abnormal ends (a malformed tree, a failed health check);
the database writes and the note/debug output are not modelled. -/
def testFunctionE (cfg : EngineConfig) (timedOut : Bool) (rsel : Nat)
    (es : EngineState) (d : TestData) : Option (EngineState × Option ExitReason) :=
  let es1 := { es with callCount := es.callCount + 1 }
  let es2 := { es1 with selector := selectorAdd rsel es1.selector d }
  let es3 := if d.status = Status.VALID then
      { es2 with validExamples := es2.validExamples + 1 } else es2
  let es4 := if es3.callCount % CACHE_RESET_FREQUENCY = 0 ∧ es3.interesting.isEmpty then
      { es3 with ts := initTree (cfg.bufferSize / 2) } else es3
  match insertData es4.ts d with
  | none => none
  | some ts2 =>
    let es5 := interestingUpdate { es4 with ts := ts2 } d
    match exitChecks cfg timedOut es5 d with
    | some r => some (es5, some r)
    | none =>
      match healthUpdate es5 d with
      | none => none
      | some h2 => some ({ es5 with health := h2 }, none)

/-- `cached_test_function` (lines 1058-1102): look the buffer up in the
tree; a hit returns the stored result without running the test, and a miss
runs the test function on the buffer, whose frozen result is the oracle
argument `dRun`. -/
def cachedTestFunctionE (cfg : EngineConfig) (timedOut : Bool) (rsel : Nat)
    (es : EngineState) (b : List Nat) (dRun : TestData) :
    Option (TestData × EngineState × Option ExitReason) :=
  match cachedWalk es.ts 0 b with
  | some d => some (d, es, none)
  | none =>
    match testFunctionE cfg timedOut rsel es dRun with
    | none => none
    | some (es2, r) => some (dRun, es2, r)

theorem aset_ne_nil {α : Type} (l : List (Nat × α)) (k : Nat) (v : α) :
    aset l k v ≠ [] := by
  cases l with
  | nil => simp [aset]
  | cons p rest =>
    unfold aset
    split <;> simp

/-- An INTERESTING result always leaves an interesting example stored. -/
theorem interestingUpdate_nonempty (es : EngineState) (d : TestData)
    (h : d.status = Status.INTERESTING) :
    (interestingUpdate es d).interesting.isEmpty = false := by
  unfold interestingUpdate
  rw [if_pos h]
  split
  · next =>
    rw [Bool.eq_false_iff]
    intro hh
    exact aset_ne_nil es.interesting d.interestingOrigin d (List.isEmpty_iff.mp hh)
  · next existing hex =>
    split
    · rw [Bool.eq_false_iff]
      intro hh
      exact aset_ne_nil es.interesting d.interestingOrigin d (List.isEmpty_iff.mp hh)
    · rw [Bool.eq_false_iff]
      intro hh
      rw [List.isEmpty_iff.mp hh] at hex
      exact absurd hex (by simp [alookup])

theorem exitChecks_congr (cfg : EngineConfig) (t : Bool) (e1 e2 : EngineState)
    (d : TestData)
    (h1 : e1.shrinks = e2.shrinks) (h2 : e1.interesting = e2.interesting)
    (h3 : e1.validExamples = e2.validExamples) (h4 : e1.callCount = e2.callCount)
    (h5 : e1.ts = e2.ts) :
    exitChecks cfg t e1 d = exitChecks cfg t e2 d := by
  unfold exitChecks
  rw [h1, h2, h3, h4, h5]

/-- When the shrink, timeout and earlier exits do not fire and nothing
interesting is stored, the `max_examples` and `max_iterations` checks fire
exactly per their conditions and in that order. -/
theorem exitChecks_empty (cfg : EngineConfig) (timedOut : Bool) (es : EngineState)
    (d : TestData)
    (hsh : ¬ (d.status = Status.INTERESTING ∧ MAX_SHRINKS ≤ es.shrinks))
    (htime : ¬ (0 < cfg.timeout ∧ timedOut = true))
    (hemp : es.interesting.isEmpty = true) :
    (cfg.maxExamples ≤ es.validExamples →
      exitChecks cfg timedOut es d = some ExitReason.max_examples)
    ∧ (es.validExamples < cfg.maxExamples →
        max (cfg.maxExamples * 10) 1000 ≤ es.callCount →
        exitChecks cfg timedOut es d = some ExitReason.max_iterations) := by
  unfold exitChecks
  rw [if_neg hsh, if_neg htime]
  constructor
  · intro hv
    rw [if_pos ⟨hemp, hv⟩]
  · intro hv hc
    rw [if_neg (fun hh => absurd hh.2 (Nat.not_le_of_lt hv)), if_pos ⟨hemp, hc⟩]

/-- With an interesting example stored, the example-budget exits are off. -/
theorem exitChecks_nonempty (cfg : EngineConfig) (timedOut : Bool) (es : EngineState)
    (d : TestData) (hemp : es.interesting.isEmpty = false) :
    exitChecks cfg timedOut es d ≠ some ExitReason.max_examples
    ∧ exitChecks cfg timedOut es d ≠ some ExitReason.max_iterations := by
  have hne : ¬ (es.interesting.isEmpty = true) := by simp [hemp]
  unfold exitChecks
  split_ifs with h1 h2 h3 h4 h5
  · exact ⟨by simp, by simp⟩
  · exact ⟨by simp, by simp⟩
  · exact absurd h3.1 hne
  · exact absurd h4.1 hne
  · exact ⟨by simp, by simp⟩
  · exact ⟨by simp, by simp⟩

/-- Claim C5: after a test-function call that is not stopped earlier by the
timeout: while no interesting example is recorded, the call exits
`max_examples` when `valid_examples` has reached `max_examples`, and exits
`max_iterations` when it has not but `call_count` has reached
`max(max_examples * 10, 1000)`; once an interesting example exists, neither
of those exits can occur. -/
theorem c5_budget_exits (cfg : EngineConfig) (timedOut : Bool) (rsel : Nat)
    (es : EngineState) (d : TestData) (es2 : EngineState) (r : Option ExitReason)
    (hrun : testFunctionE cfg timedOut rsel es d = some (es2, r))
    (htime : ¬ (0 < cfg.timeout ∧ timedOut = true)) :
    (es2.interesting.isEmpty = true →
      ((cfg.maxExamples ≤ es2.validExamples → r = some ExitReason.max_examples)
       ∧ (es2.validExamples < cfg.maxExamples →
           max (cfg.maxExamples * 10) 1000 ≤ es2.callCount →
           r = some ExitReason.max_iterations)))
    ∧ (es2.interesting.isEmpty = false →
        r ≠ some ExitReason.max_examples ∧ r ≠ some ExitReason.max_iterations) := by
  simp only [testFunctionE] at hrun
  split at hrun
  · exact absurd hrun (by simp)
  · next ts2 hins =>
    split at hrun
    · next rr hex =>
      simp only [Option.some_inj, Prod.mk.injEq] at hrun
      obtain ⟨hes, hr⟩ := hrun
      have hkey : exitChecks cfg timedOut es2 d = r := by
        rw [← hes, ← hr]
        exact hex
      have hIntNE : d.status = Status.INTERESTING → es2.interesting.isEmpty = false := by
        intro hi
        rw [← hes]
        exact interestingUpdate_nonempty _ d hi
      constructor
      · intro hemp
        have hsh : ¬ (d.status = Status.INTERESTING ∧ MAX_SHRINKS ≤ es2.shrinks) := by
          rintro ⟨hi, _⟩
          rw [hIntNE hi] at hemp
          exact absurd hemp (by simp)
        rcases exitChecks_empty cfg timedOut es2 d hsh htime hemp with ⟨hA, hB⟩
        exact ⟨fun hv => by rw [← hkey]; exact hA hv,
          fun hv hc => by rw [← hkey]; exact hB hv hc⟩
      · intro hemp
        rcases exitChecks_nonempty cfg timedOut es2 d hemp with ⟨hA, hB⟩
        exact ⟨by rw [← hkey]; exact hA, by rw [← hkey]; exact hB⟩
    · next hex =>
      split at hrun
      · exact absurd hrun (by simp)
      · next h2 hh =>
        simp only [Option.some_inj, Prod.mk.injEq] at hrun
        obtain ⟨hes, hr⟩ := hrun
        have hkey : exitChecks cfg timedOut es2 d = r := by
          rw [← hr]
          rw [← hes]
          rw [exitChecks_congr cfg timedOut _ _ d rfl rfl rfl rfl rfl] at hex
          exact hex
        have hIntNE : d.status = Status.INTERESTING → es2.interesting.isEmpty = false := by
          intro hi
          rw [← hes]
          exact interestingUpdate_nonempty _ d hi
        constructor
        · intro hemp
          have hsh : ¬ (d.status = Status.INTERESTING ∧ MAX_SHRINKS ≤ es2.shrinks) := by
            rintro ⟨hi, _⟩
            rw [hIntNE hi] at hemp
            exact absurd hemp (by simp)
          rcases exitChecks_empty cfg timedOut es2 d hsh htime hemp with ⟨hA, hB⟩
          exact ⟨fun hv => by rw [← hkey]; exact hA hv,
            fun hv hc => by rw [← hkey]; exact hB hv hc⟩
        · intro hemp
          rcases exitChecks_nonempty cfg timedOut es2 d hemp with ⟨hA, hB⟩
          exact ⟨by rw [← hkey]; exact hA, by rw [← hkey]; exact hB⟩

/-- A one-example budget, an empty initial runner state, and a frozen VALID
result on the one-byte buffer. -/
def cfgC5 : EngineConfig := ⟨1, 8192, 0⟩

/-- An empty initial runner state for the budget-exit witness. -/
def esC5 : EngineState := ⟨initTree 4096, 0, 0, 0, [], [], initSelector, none⟩

/-- A frozen VALID result on the one-byte buffer. -/
def dValidC5 : TestData := ⟨[0], Status.VALID, [], [], [], [], 0⟩

/-- The state and exit produced by the witness's test-function call. -/
def runC5 : EngineState × Option ExitReason :=
  (testFunctionE cfgC5 false 0 esC5 dValidC5).getD (esC5, none)

/-- Claim C5 at a concrete input: with `max_examples = 1`, the first VALID
call exits `max_examples`. -/
theorem c5_budget_exits_witness :
    (runC5.1.interesting.isEmpty = true →
      ((cfgC5.maxExamples ≤ runC5.1.validExamples →
          runC5.2 = some ExitReason.max_examples)
       ∧ (runC5.1.validExamples < cfgC5.maxExamples →
           max (cfgC5.maxExamples * 10) 1000 ≤ runC5.1.callCount →
           runC5.2 = some ExitReason.max_iterations)))
    ∧ (runC5.1.interesting.isEmpty = false →
        runC5.2 ≠ some ExitReason.max_examples
        ∧ runC5.2 ≠ some ExitReason.max_iterations) :=
  c5_budget_exits cfgC5 false 0 esC5 dValidC5 runC5.1 runC5.2 (by decide) (by decide)

/-- Claim C10: when `cached_test_function` takes the cache-hit path (the
tree lookup reaches a stored leaf), the user test function is not invoked
and the whole runner state — the trie, call count, valid examples, shrink
count, interesting examples, shrunk set, target selector and health state —
comes back unchanged, with no exit raised. -/
theorem c10_cache_hit_frame (cfg : EngineConfig) (timedOut : Bool) (rsel : Nat)
    (es : EngineState) (b : List Nat) (dRun d : TestData)
    (h : cachedWalk es.ts 0 b = some d) :
    ∃ d2 es2 r, cachedTestFunctionE cfg timedOut rsel es b dRun = some (d2, es2, r)
    ∧ d2 = d ∧ r = none
    ∧ es2.ts = es.ts ∧ es2.callCount = es.callCount
    ∧ es2.validExamples = es.validExamples ∧ es2.shrinks = es.shrinks
    ∧ es2.interesting = es.interesting ∧ es2.shrunk = es.shrunk
    ∧ es2.selector = es.selector ∧ es2.health = es.health := by
  refine ⟨d, es, none, ?_, rfl, rfl, rfl, rfl, rfl, rfl, rfl, rfl, rfl, rfl⟩
  unfold cachedTestFunctionE
  rw [h]

/-- A runner state over the `sC2` tree, with nonzero counters so the frame
is visible. -/
def esC10 : EngineState := ⟨sC2, 5, 3, 0, [], [], initSelector, none⟩

/-- Claim C10 at a concrete input: looking up `[5]` over the `sC2` tree hits
the stored leaf `dC2` and returns the runner state untouched. -/
theorem c10_cache_hit_frame_witness :
    ∃ d2 es2 r, cachedTestFunctionE ⟨100, 8192, 0⟩ false 0 esC10 [5] dC2
        = some (d2, es2, r)
    ∧ d2 = dC2 ∧ r = none
    ∧ es2.ts = esC10.ts ∧ es2.callCount = esC10.callCount
    ∧ es2.validExamples = esC10.validExamples ∧ es2.shrinks = esC10.shrinks
    ∧ es2.interesting = esC10.interesting ∧ es2.shrunk = esC10.shrunk
    ∧ es2.selector = esC10.selector ∧ es2.health = esC10.health :=
  c10_cache_hit_frame ⟨100, 8192, 0⟩ false 0 esC10 [5] dC2 dC2 (by decide)

end Conjecture
